import Mathlib

/-!
# Token patterns of json-voorhees

A shallow embedding of `src/jsonv/detail/token_patterns.cpp` and a verification
of its matchers.

Modelling conventions.

* The input range `[begin, end)` is a `List Char`: every byte value is a
  `Char`, and the source only compares bytes with ASCII constants.  A cursor
  `begin + length` is carried as the pair of the bytes that remain from the
  cursor to `end` and the counter `length`; `begin + length == end` is "no
  bytes remain" and `begin[length]` is the head of the remaining bytes.
* The out-parameters `kind` and `length` are returned together with the
  `match_result` in a `match_output`.
* A failed `assert` and a `std::out_of_range` thrown by `string_view::at`
  are the result `none`.
-/

namespace jsonv.detail

/-! ## Data model -/

/-- Modelled from the spec: the enumeration `match_result`, declared in the
header `jsonv/detail/token_patterns.hpp`, which is not among the sources; the
source uses its two values `complete` and `unmatched`. -/
inductive match_result where
  | complete
  | unmatched
  deriving DecidableEq, Repr

/-- Modelled from the spec: the enumeration `token_kind`, declared in the
header `jsonv/detail/token_patterns.hpp`, which is not among the sources; the
values are those the specification lists and the source assigns. -/
inductive token_kind where
  | unknown
  | array_begin
  | array_end
  | boolean
  | null
  | number
  | separator
  | string
  | object_begin
  | object_key_delimiter
  | object_end
  | whitespace
  | comment
  deriving DecidableEq, Repr

/-- Modelled from the spec: the enumeration `path_match_result`, declared in
the header `jsonv/detail/token_patterns.hpp`, which is not among the sources;
the source returns its three values. -/
inductive path_match_result where
  | simple_object
  | brace
  | invalid
  deriving DecidableEq, Repr

/-- The enumeration `match_number_state` of the source. -/
inductive match_number_state where
  | initial
  | leading_minus
  | leading_zero
  | integer
  | decimal
  | exponent
  | exponent_sign
  | complete
  deriving DecidableEq, Repr

/-- What a matcher hands back: the returned `match_result` and the final
values of the out-parameters `kind` and `length`. -/
structure match_output where
  result : match_result
  kind : token_kind
  length : Nat
  deriving DecidableEq, Repr

/-! ## Character classes used by the `switch` statements -/

/-- The case labels `'1'` .. `'9'`. -/
def is_digit_1_9 (c : Char) : Bool :=
  c == '1' || c == '2' || c == '3' || c == '4' || c == '5' ||
  c == '6' || c == '7' || c == '8' || c == '9'

/-- The case labels `'0'` .. `'9'`. -/
def is_digit (c : Char) : Bool :=
  c == '0' || is_digit_1_9 c

/-- The case labels `'e'` and `'E'`. -/
def is_exp_marker (c : Char) : Bool :=
  c == 'e' || c == 'E'

/-- The case labels `'+'` and `'-'`. -/
def is_sign (c : Char) : Bool :=
  c == '+' || c == '-'

/-- The first-byte test of `match_simple_string`:
`('a' <= c && c <= 'z') || ('A' <= c && c <= 'Z') || (c == '_') || (c == '$')`. -/
def is_simple_start (c : Char) : Bool :=
  (decide ('a' ≤ c) && decide (c ≤ 'z')) || (decide ('A' ≤ c) && decide (c ≤ 'Z')) ||
  c == '_' || c == '$'

/-- The continuation test of `match_simple_string`: the first-byte test or
`('0' <= c && c <= '9')`. -/
def is_simple_char (c : Char) : Bool :=
  (decide ('a' ≤ c) && decide (c ≤ 'z')) || (decide ('A' ≤ c) && decide (c ≤ 'Z')) ||
  c == '_' || c == '$' || (decide ('0' ≤ c) && decide (c ≤ '9'))

/-- The case labels `' '`, `'\t'`, `'\r'`, `'\n'`. -/
def is_space (c : Char) : Bool :=
  c == ' ' || c == '\t' || c == '\r' || c == '\n'

/-! ## `match_literal`, `match_true`, `match_false`, `match_null` -/

/-- The loop of `match_literal`: `input` are the bytes from `begin + length`
to `end`, `literal` the characters of the literal from index `length` on. -/
def match_literal_loop : List Char → List Char → Nat → match_result × Nat
  | _, [], length => (match_result.complete, length)
  | [], _ :: _, length => (match_result.unmatched, length)
  | b :: input, l :: literal, length =>
    if b != l then (match_result.unmatched, length)
    else match_literal_loop input literal (length + 1)

/-- The template `match_literal`: the loop started at `length = 0`. -/
def match_literal (input literal : List Char) : match_result × Nat :=
  match_literal_loop input literal 0

def match_true (input : List Char) : match_output :=
  let r := match_literal input ['t', 'r', 'u', 'e']
  ⟨r.1, token_kind.boolean, r.2⟩

def match_false (input : List Char) : match_output :=
  let r := match_literal input ['f', 'a', 'l', 's', 'e']
  ⟨r.1, token_kind.boolean, r.2⟩

def match_null (input : List Char) : match_output :=
  let r := match_literal input ['n', 'u', 'l', 'l']
  ⟨r.1, token_kind.null, r.2⟩

/-! ## `match_number` -/

/-- The local variables of `match_number` between two blocks: `state`, the
bytes from `begin + length` to `end`, and `length`. -/
structure number_cursor where
  state : match_number_state
  rest : List Char
  length : Nat
  deriving DecidableEq, Repr

/-- A block of `match_number` either falls through to the next block with
new locals, or executes `return match_result::unmatched` with the value
`length` has at that point. -/
inductive number_flow where
  | next (k : number_cursor)
  | unmatched (length : Nat)
  deriving DecidableEq, Repr

/-- The block "Initial" (`length = 0`, `state = initial`).  At the end of the
buffer `current()` is `'\0'`, which takes the `default` label. -/
def number_initial : List Char → number_flow
  | [] => number_flow.unmatched 0
  | c :: rest =>
    if c == '-' then number_flow.next ⟨match_number_state.leading_minus, rest, 1⟩
    else if c == '0' then number_flow.next ⟨match_number_state.leading_zero, rest, 1⟩
    else if is_digit_1_9 c then number_flow.next ⟨match_number_state.integer, rest, 1⟩
    else number_flow.unmatched 0

/-- The block "Leading '-'". -/
def number_leading_minus (k : number_cursor) : number_flow :=
  if k.state = match_number_state.leading_minus then
    match k.rest with
    | [] => number_flow.unmatched k.length
    | c :: rest =>
      if c == '0' then number_flow.next ⟨match_number_state.leading_zero, rest, k.length + 1⟩
      else if is_digit_1_9 c then
        number_flow.next ⟨match_number_state.integer, rest, k.length + 1⟩
      else number_flow.unmatched k.length
  else number_flow.next k

/-- The block "Leading '0' or "-0"".  It never returns. -/
def number_leading_zero (k : number_cursor) : number_cursor :=
  if k.state = match_number_state.leading_zero then
    match k.rest with
    | [] => ⟨match_number_state.complete, [], k.length⟩
    | c :: rest =>
      if is_digit c then ⟨match_number_state.integer, rest, k.length + 1⟩
      else if c == '.' then ⟨match_number_state.decimal, rest, k.length + 1⟩
      else if is_exp_marker c then ⟨match_number_state.exponent, rest, k.length + 1⟩
      else ⟨match_number_state.complete, c :: rest, k.length⟩
  else k

/-- The body of `while (state == match_number_state::integer)`, run until the
state changes. -/
def number_integer_loop : List Char → Nat → number_cursor
  | [], length => ⟨match_number_state.complete, [], length⟩
  | c :: rest, length =>
    if is_digit c then number_integer_loop rest (length + 1)
    else if c == '.' then ⟨match_number_state.decimal, rest, length + 1⟩
    else if is_exp_marker c then ⟨match_number_state.exponent, rest, length + 1⟩
    else ⟨match_number_state.complete, c :: rest, length⟩

/-- The block "Have only seen integer values". -/
def number_integer (k : number_cursor) : number_cursor :=
  if k.state = match_number_state.integer then number_integer_loop k.rest k.length
  else k

/-- The body of the inner `while (state == match_number_state::decimal)`, run
until the state changes. -/
def number_decimal_loop : List Char → Nat → number_cursor
  | [], length => ⟨match_number_state.complete, [], length⟩
  | c :: rest, length =>
    if is_digit c then number_decimal_loop rest (length + 1)
    else if is_exp_marker c then ⟨match_number_state.exponent, rest, length + 1⟩
    else ⟨match_number_state.complete, c :: rest, length⟩

/-- The block "Just saw a '.'": one mandatory digit, then the inner loop. -/
def number_decimal (k : number_cursor) : number_flow :=
  if k.state = match_number_state.decimal then
    match k.rest with
    | [] => number_flow.unmatched k.length
    | c :: rest =>
      if is_digit c then number_flow.next (number_decimal_loop rest (k.length + 1))
      else number_flow.unmatched k.length
  else number_flow.next k

/-- The block "Just saw 'e' or 'E'". -/
def number_exponent (k : number_cursor) : number_flow :=
  if k.state = match_number_state.exponent then
    match k.rest with
    | [] => number_flow.unmatched k.length
    | c :: rest =>
      if is_digit c then number_flow.next ⟨match_number_state.exponent, rest, k.length + 1⟩
      else if is_sign c then
        number_flow.next ⟨match_number_state.exponent_sign, rest, k.length + 1⟩
      else number_flow.unmatched k.length
  else number_flow.next k

/-- The block "Just saw "e-", "e+", "E-", or "E+"". -/
def number_exponent_sign (k : number_cursor) : number_flow :=
  if k.state = match_number_state.exponent_sign then
    match k.rest with
    | [] => number_flow.unmatched k.length
    | c :: rest =>
      if is_digit c then number_flow.next ⟨match_number_state.exponent, rest, k.length + 1⟩
      else number_flow.unmatched k.length
  else number_flow.next k

/-- The body of the final `while (state == match_number_state::exponent)`, run
until the state changes. -/
def number_exponent_loop : List Char → Nat → number_cursor
  | [], length => ⟨match_number_state.complete, [], length⟩
  | c :: rest, length =>
    if is_digit c then number_exponent_loop rest (length + 1)
    else ⟨match_number_state.complete, c :: rest, length⟩

/-- The final `while` block. -/
def number_exponent_tail (k : number_cursor) : number_cursor :=
  if k.state = match_number_state.exponent then number_exponent_loop k.rest k.length
  else k

/-- The last two statements of `match_number`:
`assert(state == match_number_state::complete); return match_result::complete;`. -/
def number_finish (k : number_cursor) : Option match_output :=
  if k.state = match_number_state.complete then
    some ⟨match_result.complete, token_kind.number, k.length⟩
  else none

/-- The early `return match_result::unmatched` of `match_number`: `kind` was
set to `number` on entry. -/
def number_unmatched (length : Nat) : Option match_output :=
  some ⟨match_result.unmatched, token_kind.number, length⟩

/-- The function `match_number`: its blocks in source order. -/
def match_number (input : List Char) : Option match_output :=
  match number_initial input with
  | number_flow.unmatched n => number_unmatched n
  | number_flow.next k =>
  match number_leading_minus k with
  | number_flow.unmatched n => number_unmatched n
  | number_flow.next k =>
  match number_decimal (number_integer (number_leading_zero k)) with
  | number_flow.unmatched n => number_unmatched n
  | number_flow.next k =>
  match number_exponent k with
  | number_flow.unmatched n => number_unmatched n
  | number_flow.next k =>
  match number_exponent_sign k with
  | number_flow.unmatched n => number_unmatched n
  | number_flow.next k => number_finish (number_exponent_tail k)

/-! ## `match_string` -/

/-- The `while (true)` loop of `match_string`. -/
def match_string_loop : List Char → Nat → match_result × Nat
  | [], length => (match_result.unmatched, length)
  | c :: rest, length =>
    if c == '"' then (match_result.complete, length + 1)
    else if c == '\\' then
      match rest with
      | [] => (match_result.unmatched, length)
      | _ :: rest2 => match_string_loop rest2 (length + 2)
    else match_string_loop rest (length + 1)

/-- The function `match_string`; `assert(*begin == '\"')` fails on any other
first byte (and there is no first byte to read in an empty range). -/
def match_string : List Char → Option match_output
  | [] => none
  | c :: rest =>
    if c == '"' then
      let r := match_string_loop rest 1
      some ⟨r.1, token_kind.string, r.2⟩
    else none

/-! ## `match_simple_string` -/

/-- The `while (true)` loop of `match_simple_string`.  At the end of the buffer
`current()` is `'\0'`; a `'\0'` byte of the input returns `complete` too. -/
def match_simple_string_loop : List Char → Nat → Nat
  | [], length => length
  | c :: rest, length =>
    if c == '\x00' then length
    else if is_simple_char c then match_simple_string_loop rest (length + 1)
    else length

/-- The function `match_simple_string`. -/
def match_simple_string : List Char → match_output
  | [] => ⟨match_result.unmatched, token_kind.string, 0⟩
  | c :: rest =>
    if is_simple_start c then
      ⟨match_result.complete, token_kind.string, match_simple_string_loop rest 1⟩
    else ⟨match_result.unmatched, token_kind.string, 0⟩

/-! ## `match_whitespace` -/

/-- The `for` loop of `match_whitespace`; every exit returns `complete`. -/
def match_whitespace_loop : List Char → Nat → Nat
  | [], length => length
  | c :: rest, length =>
    if is_space c then match_whitespace_loop rest (length + 1)
    else length

/-- The function `match_whitespace`. -/
def match_whitespace (input : List Char) : match_output :=
  ⟨match_result.complete, token_kind.whitespace, match_whitespace_loop input 0⟩

/-! ## `match_comment` -/

/-- The `for` loop of `match_comment`, with its flag `saw_asterisk`. -/
def match_comment_loop : List Char → Bool → Nat → match_result × Nat
  | [], _, length => (match_result.unmatched, length)
  | c :: rest, saw_asterisk, length =>
    if c == '*' then match_comment_loop rest true (length + 1)
    else if saw_asterisk && c == '/' then (match_result.complete, length + 1)
    else match_comment_loop rest false (length + 1)

/-- The function `match_comment`; `assert(*begin == '/')` fails on any other
first byte. -/
def match_comment : List Char → Option match_output
  | [] => none
  | c :: rest =>
    if c == '/' then
      match rest with
      | [] => some ⟨match_result.unmatched, token_kind.comment, 1⟩
      | d :: rest2 =>
        if d == '*' then
          let r := match_comment_loop rest2 false 2
          some ⟨r.1, token_kind.comment, r.2⟩
        else some ⟨match_result.unmatched, token_kind.comment, 1⟩
    else none

/-! ## `attempt_match` -/

/-- The function `attempt_match`. -/
def attempt_match : List Char → Option match_output
  | [] => some ⟨match_result.unmatched, token_kind.unknown, 0⟩
  | c :: rest =>
    if c == '[' then some ⟨match_result.complete, token_kind.array_begin, 1⟩
    else if c == ']' then some ⟨match_result.complete, token_kind.array_end, 1⟩
    else if c == '{' then some ⟨match_result.complete, token_kind.object_begin, 1⟩
    else if c == '}' then some ⟨match_result.complete, token_kind.object_end, 1⟩
    else if c == ':' then some ⟨match_result.complete, token_kind.object_key_delimiter, 1⟩
    else if c == ',' then some ⟨match_result.complete, token_kind.separator, 1⟩
    else if c == 't' then some (match_true (c :: rest))
    else if c == 'f' then some (match_false (c :: rest))
    else if c == 'n' then some (match_null (c :: rest))
    else if c == '-' || is_digit c then match_number (c :: rest)
    else if c == '"' then match_string (c :: rest)
    else if is_space c then some (match_whitespace (c :: rest))
    else if c == '/' then match_comment (c :: rest)
    else some ⟨match_result.unmatched, token_kind.unknown, 1⟩

/-! ## `path_match` -/

/-- The function `path_match`.  The second argument is the caller's
`match_contents` before the call; the second component of the result is its
value after the call.  `input.at(i)` throws when `i` is not below the size,
`input.substr(0, n)` is the first `n` bytes, clamped to the size. -/
def path_match (input : List Char) (match_contents : List Char) :
    Option (path_match_result × List Char) :=
  if input.length < 2 then some (path_match_result.invalid, match_contents)
  else
    match input[0]? with
    | none => none
    | some c =>
      if c == '.' then
        let r := match_simple_string (input.drop 1)
        if r.result = match_result.complete then
          some (path_match_result.simple_object, input.take (r.length + 1))
        else some (path_match_result.invalid, match_contents)
      else if c == '[' then
        match attempt_match (input.drop 1) with
        | none => none
        | some r =>
          if r.result = match_result.complete then
            if input.length = r.length + 1 then
              some (path_match_result.invalid, match_contents)
            else
              match input[1 + r.length]? with
              | none => none
              | some d =>
                if d != ']' then some (path_match_result.invalid, match_contents)
                else if r.kind ≠ token_kind.string ∧ r.kind ≠ token_kind.number then
                  some (path_match_result.invalid, match_contents)
                else some (path_match_result.brace, input.take (r.length + 2))
          else some (path_match_result.invalid, match_contents)
      else some (path_match_result.invalid, match_contents)

/-! ## Closed form of the number scan -/

/-- The number of leading bytes of `s` that are digits. -/
def digit_run (s : List Char) : Nat := (s.takeWhile is_digit).length

/-- Where the integer loop stops, on bytes that do not start with a digit. -/
def integer_stop : List Char → Nat → number_cursor
  | [], m => ⟨match_number_state.complete, [], m⟩
  | c :: rest, m =>
    if c == '.' then ⟨match_number_state.decimal, rest, m + 1⟩
    else if is_exp_marker c then ⟨match_number_state.exponent, rest, m + 1⟩
    else ⟨match_number_state.complete, c :: rest, m⟩

/-- Where the fraction loop stops, on bytes that do not start with a digit. -/
def decimal_stop : List Char → Nat → number_cursor
  | [], m => ⟨match_number_state.complete, [], m⟩
  | c :: rest, m =>
    if is_exp_marker c then ⟨match_number_state.exponent, rest, m + 1⟩
    else ⟨match_number_state.complete, c :: rest, m⟩

/-- The blocks of `match_number` from "Just saw 'e' or 'E'" to the end. -/
def number_from_exponent (k : number_cursor) : Option match_output :=
  match number_exponent k with
  | number_flow.unmatched n => number_unmatched n
  | number_flow.next k =>
  match number_exponent_sign k with
  | number_flow.unmatched n => number_unmatched n
  | number_flow.next k => number_finish (number_exponent_tail k)

/-- The blocks of `match_number` from "Just saw a '.'" to the end. -/
def number_from_decimal (k : number_cursor) : Option match_output :=
  match number_decimal k with
  | number_flow.unmatched n => number_unmatched n
  | number_flow.next k => number_from_exponent k

/-- Closed form of the scan after an exponent marker: `r` are the bytes after
the marker and `n` the length up to and including it. -/
def scan_exponent : List Char → Nat → match_output
  | [], n => ⟨match_result.unmatched, token_kind.number, n⟩
  | c :: r, n =>
    if is_digit c then ⟨match_result.complete, token_kind.number, n + 1 + digit_run r⟩
    else if is_sign c then
      if digit_run r = 0 then ⟨match_result.unmatched, token_kind.number, n + 1⟩
      else ⟨match_result.complete, token_kind.number, n + 1 + digit_run r⟩
    else ⟨match_result.unmatched, token_kind.number, n⟩

/-- Closed form of the scan after the fraction digits: `r` are the bytes after
them and `n` the length up to them. -/
def scan_after_fraction : List Char → Nat → match_output
  | [], n => ⟨match_result.complete, token_kind.number, n⟩
  | c :: r, n =>
    if is_exp_marker c then scan_exponent r (n + 1)
    else ⟨match_result.complete, token_kind.number, n⟩

/-- Closed form of the scan after a `'.'`: `r` are the bytes after the dot and
`n` the length up to and including it. -/
def scan_fraction (r : List Char) (n : Nat) : match_output :=
  if digit_run r = 0 then ⟨match_result.unmatched, token_kind.number, n⟩
  else scan_after_fraction (r.dropWhile is_digit) (n + digit_run r)

/-- Closed form of the scan after the integer digits: `r` are the bytes after
them and `n` the length up to them. -/
def scan_after_integer : List Char → Nat → match_output
  | [], n => ⟨match_result.complete, token_kind.number, n⟩
  | c :: r, n =>
    if c == '.' then scan_fraction r (n + 1)
    else if is_exp_marker c then scan_exponent r (n + 1)
    else ⟨match_result.complete, token_kind.number, n⟩

/-- Closed form of the scan of the integer digits: `body` are the bytes after
the optional minus sign and `n` is the length of that sign. -/
def scan_integer (body : List Char) (n : Nat) : match_output :=
  if digit_run body = 0 then ⟨match_result.unmatched, token_kind.number, n⟩
  else scan_after_integer (body.dropWhile is_digit) (n + digit_run body)

/-- Closed form of `match_number`. -/
def scan_number : List Char → match_output
  | [] => ⟨match_result.unmatched, token_kind.number, 0⟩
  | c :: r => if c == '-' then scan_integer r 1 else scan_integer (c :: r) 0

/-! ## The relaxed number grammar -/

/-- The words of `[0-9]+`. -/
def is_digits (ds : List Char) : Prop := ds ≠ [] ∧ ∀ c ∈ ds, is_digit c = true

instance (ds : List Char) : Decidable (is_digits ds) := by
  unfold is_digits; infer_instance

/-- The words of `\\.[0-9]+`, a fraction. -/
def fraction_word (x : List Char) : Prop := ∃ fs, x = '.' :: fs ∧ is_digits fs

/-- The words of `[eE][+-]?[0-9]+`, an exponent. -/
def exponent_word (x : List Char) : Prop :=
  ∃ e sg es, x = e :: (sg ++ es) ∧ is_exp_marker e = true ∧
    (sg = [] ∨ ∃ c, sg = [c] ∧ is_sign c = true) ∧ is_digits es

/-- The words of `-?[0-9]+(\\.[0-9]+)?([eE][+-]?[0-9]+)?`, the relaxed number
grammar: an optional minus sign, the integer digits, an optional fraction and
an optional exponent. -/
def number_word (w : List Char) : Prop :=
  ∃ sign int frac exp : List Char,
    w = sign ++ (int ++ (frac ++ exp)) ∧
    (sign = [] ∨ sign = ['-']) ∧
    is_digits int ∧
    (frac = [] ∨ fraction_word frac) ∧
    (exp = [] ∨ exponent_word exp)

/-- The bytes `t` are empty or begin with a byte that is not a digit. -/
def no_digit_head (t : List Char) : Prop := ∀ c ∈ t.head?, is_digit c = false

/-- The bytes `t` are empty or begin with a byte that is not a digit, `'.'`,
`'e'` or `'E'`. -/
def number_follow (t : List Char) : Prop :=
  ∀ c ∈ t.head?, is_digit c = false ∧ c ≠ '.' ∧ is_exp_marker c = false

instance (t : List Char) : Decidable (no_digit_head t) := by
  unfold no_digit_head; infer_instance

instance (t : List Char) : Decidable (number_follow t) := by
  unfold number_follow; infer_instance

/-! ## When the number scan fails -/

/-- An optional minus sign. -/
def opt_minus (sgn : List Char) : Prop := sgn = [] ∨ sgn = ['-']

/-- The bytes `r` after an exponent marker do not begin with a digit, nor with
`'+'` or `'-'` and then a digit. -/
def exponent_rejected (r : List Char) : Prop :=
  no_digit_head r ∧ ∀ c r2, r = c :: r2 → is_sign c = true → no_digit_head r2

/-- Condition (a): the input does not begin with an optional `'-'` followed
by a digit. -/
def number_rejected_start (input : List Char) : Prop :=
  ¬ ∃ sgn d r, input = sgn ++ d :: r ∧ opt_minus sgn ∧ is_digit d = true

/-- The bytes `body` are integer digits, then a `'.'` that is not followed by
a digit. -/
def body_rejected_fraction (body : List Char) : Prop :=
  ∃ ds r, body = ds ++ '.' :: r ∧ is_digits ds ∧ no_digit_head r

/-- The bytes `body` are integer digits, an optional fraction, then an exponent
marker that is not followed by a digit or by a sign and a digit. -/
def body_rejected_exponent (body : List Char) : Prop :=
  ∃ ds f e r, body = ds ++ (f ++ e :: r) ∧ is_digits ds ∧ (f = [] ∨ fraction_word f) ∧
    is_exp_marker e = true ∧ exponent_rejected r

/-- Condition (b): the byte right after the integer digits is `'.'` and it is
not followed by a digit. -/
def number_rejected_fraction (input : List Char) : Prop :=
  ∃ sgn body, input = sgn ++ body ∧ opt_minus sgn ∧ body_rejected_fraction body

/-- Condition (c): the byte right after the integer digits or after the
fraction digits is `'e'` or `'E'` and it is not followed by a digit or by a
sign and then a digit. -/
def number_rejected_exponent (input : List Char) : Prop :=
  ∃ sgn body, input = sgn ++ body ∧ opt_minus sgn ∧ body_rejected_exponent body

/-- The input without its leading `'-'`, if it has one. -/
def strip_minus : List Char → List Char
  | [] => []
  | c :: r => if c == '-' then r else c :: r

/-- The bytes `body` begin with a digit. -/
def digit_head (body : List Char) : Prop := ∃ d r, body = d :: r ∧ is_digit d = true

/-! ## The string scan -/

/-- The scan of a string token as the specification words it: it starts at
index 1, a byte that is neither `'"'` nor a backslash is stepped over, and a
backslash is stepped over together with the byte that follows it, whatever that
byte is.  `string_scan_at s i` says that the scan of `s` arrives at index `i`. -/
inductive string_scan_at (s : List Char) : Nat → Prop where
  | start : string_scan_at s 1
  | plain {i : Nat} {c : Char} : string_scan_at s i → s[i]? = some c → c ≠ '"' → c ≠ '\\' →
      string_scan_at s (i + 1)
  | escape {i : Nat} {d : Char} : string_scan_at s i → s[i]? = some '\\' → s[i + 1]? = some d →
      string_scan_at s (i + 2)

/-! ## The comment scan -/

/-- The two-byte sequence `"*/"` occurs in `s` starting at index `i`. -/
def closer_at (s : List Char) (i : Nat) : Prop := s[i]? = some '*' ∧ s[i + 1]? = some '/'

instance (s : List Char) (i : Nat) : Decidable (closer_at s i) := by
  unfold closer_at; infer_instance

/-- The sequence `"*/"` occurs in `s` starting at some index `>= 2`. -/
def has_closer (s : List Char) : Prop := ∃ i, i < s.length ∧ (2 ≤ i ∧ closer_at s i)

instance (s : List Char) : Decidable (has_closer s) := by
  unfold has_closer; infer_instance

/-- The index `i` is the first index `>= 2` at which `"*/"` occurs in `s`. -/
def first_closer_at (s : List Char) (i : Nat) : Prop :=
  2 ≤ i ∧ closer_at s i ∧ ∀ j, 2 ≤ j → j < i → ¬ closer_at s j

/-! ## Idempotence of the matchers -/

/-- Whenever `f` returns `complete` on `s`, running `f` again on exactly the
bytes it reported as matched returns the same result, kind and length. -/
def rerun_agrees (f : List Char → Option match_output) (s : List Char) : Prop :=
  ∀ out, f s = some out → out.result = match_result.complete →
    f (s.take out.length) = some out

/-! ## `path_match` on a bracket segment -/

/-- The condition under which a bracket segment is accepted: the inner token is
`complete`, its kind is `string` or `number`, and the byte right after it exists
and is `']'`. -/
def brace_accepts (input : List Char) (out : match_output) : Prop :=
  out.result = match_result.complete ∧
  (out.kind = token_kind.string ∨ out.kind = token_kind.number) ∧
  input[1 + out.length]? = some ']'

instance (input : List Char) (out : match_output) : Decidable (brace_accepts input out) := by
  unfold brace_accepts; infer_instance

/-! ## The segment matched by `path_match` -/

/-- The bytes `t` are empty or begin with a byte that cannot continue an
identifier. -/
def no_simple_head (t : List Char) : Prop := ∀ c ∈ t.head?, is_simple_char c = false

instance (t : List Char) : Decidable (no_simple_head t) := by
  unfold no_simple_head; infer_instance

/-! ## First bytes the dispatcher does not recognise -/

/-- The byte `c` is none of the case labels of the `switch` of `attempt_match`:
not `'['`, `']'`, `'{'`, `'}'`, `':'`, `','`, `'t'`, `'f'`, `'n'`, `'-'`, a
digit, `'"'`, space, tab, CR, LF or `'/'`. -/
def unrecognized_lead (c : Char) : Prop :=
  c ≠ '[' ∧ c ≠ ']' ∧ c ≠ '{' ∧ c ≠ '}' ∧ c ≠ ':' ∧ c ≠ ',' ∧ c ≠ 't' ∧ c ≠ 'f' ∧ c ≠ 'n' ∧
  c ≠ '-' ∧ is_digit c = false ∧ c ≠ '"' ∧
  c ≠ ' ' ∧ c ≠ '\t' ∧ c ≠ '\r' ∧ c ≠ '\n' ∧ c ≠ '/'

instance (c : Char) : Decidable (unrecognized_lead c) := by
  unfold unrecognized_lead; infer_instance

/-! ## The outcome of a literal -/

/-- The length of the longest common prefix of `a` and `b`. -/
def common_prefix_length : List Char → List Char → Nat
  | a :: as, b :: bs => if a = b then common_prefix_length as bs + 1 else 0
  | _, _ => 0

/-- What the specification says of a literal `lit` with kind `k`: `complete`
with the length of `lit` when `lit` is a prefix of the input, otherwise
`unmatched` with the length of the longest common prefix of the input and
`lit`. -/
def literal_outcome (lit : List Char) (k : token_kind) (input : List Char) : match_output :=
  if lit <+: input then ⟨match_result.complete, k, lit.length⟩
  else ⟨match_result.unmatched, k, common_prefix_length input lit⟩

/-- The three literals with their kinds. -/
def literal_table : List (List Char × token_kind) :=
  [(['t', 'r', 'u', 'e'], token_kind.boolean),
   (['f', 'a', 'l', 's', 'e'], token_kind.boolean),
   (['n', 'u', 'l', 'l'], token_kind.null)]

/-! ## Identifiers -/

/-- The words of `[A-Za-z_$][A-Za-z0-9_$]*`. -/
def identifier_word (p : List Char) : Prop :=
  ∃ c r, p = c :: r ∧ is_simple_start c = true ∧ ∀ d ∈ r, is_simple_char d = true

/-- The value the claim about an empty range gives to every matcher. -/
def unmatched_unknown_zero : match_output :=
  ⟨match_result.unmatched, token_kind.unknown, 0⟩

/-- The bytes `t` are empty or begin with a byte that is not whitespace. -/
def no_space_head (t : List Char) : Prop := ∀ c ∈ t.head?, is_space c = false

instance (t : List Char) : Decidable (no_space_head t) := by
  unfold no_space_head; infer_instance

/-! # Verification -/

/-! ## Closed form of the number scan -/

theorem number_integer_loop_eq (s : List Char) (n : Nat) :
    number_integer_loop s n = integer_stop (s.dropWhile is_digit) (n + digit_run s) := by
  induction s generalizing n with
  | nil => simp [number_integer_loop, integer_stop, digit_run]
  | cons c rest ih =>
    by_cases h : is_digit c = true
    · simp [number_integer_loop, h, ih, digit_run, List.takeWhile_cons_of_pos]
      congr 1; omega
    · simp [number_integer_loop, h, integer_stop, digit_run]

theorem number_decimal_loop_eq (s : List Char) (n : Nat) :
    number_decimal_loop s n = decimal_stop (s.dropWhile is_digit) (n + digit_run s) := by
  induction s generalizing n with
  | nil => simp [number_decimal_loop, decimal_stop, digit_run]
  | cons c rest ih =>
    by_cases h : is_digit c = true
    · simp [number_decimal_loop, h, ih, digit_run, List.takeWhile_cons_of_pos]
      congr 1; omega
    · simp [number_decimal_loop, h, decimal_stop, digit_run]

theorem number_exponent_loop_eq (s : List Char) (n : Nat) :
    number_exponent_loop s n =
      ⟨match_number_state.complete, s.dropWhile is_digit, n + digit_run s⟩ := by
  induction s generalizing n with
  | nil => simp [number_exponent_loop, digit_run]
  | cons c rest ih =>
    by_cases h : is_digit c = true
    · simp [number_exponent_loop, h, ih, digit_run, List.takeWhile_cons_of_pos]
      omega
    · simp [number_exponent_loop, h, digit_run]

theorem is_digit_of_1_9 {c : Char} (h : is_digit_1_9 c = true) : is_digit c = true := by
  simp [is_digit, h]

theorem is_digit_zero : is_digit '0' = true := by decide

theorem digit_run_cons_pos {c : Char} (r : List Char) (h : is_digit c = true) :
    digit_run (c :: r) = digit_run r + 1 := by
  simp [digit_run, List.takeWhile_cons_of_pos, h]

theorem digit_run_cons_neg {c : Char} (r : List Char) (h : is_digit c = false) :
    digit_run (c :: r) = 0 := by
  simp [digit_run, h]

theorem digit_run_nil : digit_run [] = 0 := rfl

theorem number_from_exponent_complete (r : List Char) (n : Nat) :
    number_from_exponent ⟨match_number_state.complete, r, n⟩ =
      some ⟨match_result.complete, token_kind.number, n⟩ := by
  simp [number_from_exponent, number_exponent, number_exponent_sign, number_exponent_tail,
    number_finish]

theorem number_from_exponent_exponent (r : List Char) (n : Nat) :
    number_from_exponent ⟨match_number_state.exponent, r, n⟩ = some (scan_exponent r n) := by
  cases r with
  | nil => simp [number_from_exponent, number_exponent, scan_exponent, number_unmatched]
  | cons c r =>
    by_cases hd : is_digit c = true
    · simp [number_from_exponent, number_exponent, scan_exponent, hd, number_exponent_sign,
        number_exponent_tail, number_exponent_loop_eq, number_finish]
    · by_cases hs : is_sign c = true
      · cases r with
        | nil =>
          simp [number_from_exponent, number_exponent, scan_exponent, hd, hs,
            number_exponent_sign, number_unmatched, digit_run_nil]
        | cons d r =>
          by_cases hd2 : is_digit d = true
          · simp [number_from_exponent, number_exponent, scan_exponent, hd, hs,
              number_exponent_sign, hd2, number_exponent_tail, number_exponent_loop_eq,
              number_finish, digit_run_cons_pos]
            omega
          · simp [number_from_exponent, number_exponent, scan_exponent, hd, hs,
              number_exponent_sign, hd2, number_unmatched, digit_run_cons_neg]
      · simp [number_from_exponent, number_exponent, scan_exponent, hd, hs, number_unmatched]

theorem number_from_exponent_decimal_stop (r : List Char) (m : Nat) :
    number_from_exponent (decimal_stop r m) = some (scan_after_fraction r m) := by
  cases r with
  | nil => simp [decimal_stop, scan_after_fraction, number_from_exponent_complete]
  | cons c r =>
    by_cases he : is_exp_marker c = true
    · simp [decimal_stop, scan_after_fraction, he, number_from_exponent_exponent]
    · simp [decimal_stop, scan_after_fraction, he, number_from_exponent_complete]

theorem number_from_decimal_decimal (r : List Char) (n : Nat) :
    number_from_decimal ⟨match_number_state.decimal, r, n⟩ = some (scan_fraction r n) := by
  cases r with
  | nil => simp [number_from_decimal, number_decimal, scan_fraction, number_unmatched,
      digit_run_nil]
  | cons c r =>
    by_cases hd : is_digit c = true
    · simp [number_from_decimal, number_decimal, scan_fraction, hd, number_decimal_loop_eq,
        number_from_exponent_decimal_stop, digit_run_cons_pos]
      congr 1; omega
    · simp [number_from_decimal, number_decimal, scan_fraction, hd, number_unmatched,
        digit_run_cons_neg]

theorem number_from_decimal_integer_stop (r : List Char) (m : Nat) :
    number_from_decimal (integer_stop r m) = some (scan_after_integer r m) := by
  cases r with
  | nil =>
    simp [integer_stop, scan_after_integer, number_from_decimal, number_decimal,
      number_from_exponent_complete]
  | cons c r =>
    by_cases hp : c = '.'
    · simp [integer_stop, scan_after_integer, hp, number_from_decimal_decimal]
    · by_cases he : is_exp_marker c = true
      · simp [integer_stop, scan_after_integer, hp, he, number_from_decimal, number_decimal,
          number_from_exponent_exponent]
      · simp [integer_stop, scan_after_integer, hp, he, number_from_decimal, number_decimal,
          number_from_exponent_complete]

/-- The leading-zero block followed by the integer loop is the integer loop
started one byte earlier. -/
theorem number_integer_leading_zero (r : List Char) (n : Nat) :
    number_integer (number_leading_zero ⟨match_number_state.leading_zero, r, n⟩) =
      number_integer_loop r n := by
  cases r with
  | nil => simp [number_leading_zero, number_integer, number_integer_loop]
  | cons c r =>
    by_cases hd : is_digit c = true
    · simp [number_leading_zero, number_integer, number_integer_loop, hd]
    · by_cases hp : c = '.'
      · subst hp
        have h0 : is_digit '.' = false := by decide
        simp [number_leading_zero, number_integer, number_integer_loop, h0]
      · by_cases he : is_exp_marker c = true
        · simp [number_leading_zero, number_integer, number_integer_loop, hd, hp, he]
        · simp [number_leading_zero, number_integer, number_integer_loop, hd, hp, he]

theorem number_integer_integer (r : List Char) (n : Nat) :
    number_integer (number_leading_zero ⟨match_number_state.integer, r, n⟩) =
      number_integer_loop r n := by
  simp [number_leading_zero, number_integer]

theorem match_number_unfold (input : List Char) :
    match_number input =
      match number_initial input with
      | number_flow.unmatched n => number_unmatched n
      | number_flow.next k =>
        match number_leading_minus k with
        | number_flow.unmatched n => number_unmatched n
        | number_flow.next k =>
          number_from_decimal (number_integer (number_leading_zero k)) := by
  unfold match_number number_from_decimal number_from_exponent
  rfl

/-- The scan of the integer digits when the first byte is a digit. -/
theorem scan_integer_digit {c : Char} (r : List Char) (n : Nat) (h : is_digit c = true) :
    scan_integer (c :: r) n = scan_after_integer (r.dropWhile is_digit) (n + 1 + digit_run r) := by
  simp [scan_integer, digit_run_cons_pos, h]
  congr 1; omega

theorem scan_integer_not_digit {c : Char} (r : List Char) (n : Nat) (h : is_digit c = false) :
    scan_integer (c :: r) n = ⟨match_result.unmatched, token_kind.number, n⟩ := by
  simp [scan_integer, digit_run_cons_neg, h]

theorem scan_integer_nil (n : Nat) :
    scan_integer [] n = ⟨match_result.unmatched, token_kind.number, n⟩ := by
  simp [scan_integer, digit_run_nil]

/-- The blocks after the minus sign, on the bytes `body` that follow it. -/
theorem number_body_eq (body : List Char) (n : Nat) :
    (match number_leading_minus ⟨match_number_state.leading_minus, body, n⟩ with
      | number_flow.unmatched n => number_unmatched n
      | number_flow.next k =>
        number_from_decimal (number_integer (number_leading_zero k))) =
      some (scan_integer body n) := by
  cases body with
  | nil => simp [number_leading_minus, number_unmatched, scan_integer_nil]
  | cons c r =>
    by_cases hz : c = '0'
    · subst hz
      simp [number_leading_minus, number_integer_leading_zero, number_integer_loop_eq,
        number_from_decimal_integer_stop, scan_integer_digit _ _ is_digit_zero]
    · by_cases h19 : is_digit_1_9 c = true
      · simp [number_leading_minus, hz, h19, number_integer_integer, number_integer_loop_eq,
          number_from_decimal_integer_stop, scan_integer_digit _ _ (is_digit_of_1_9 h19)]
      · have hd : is_digit c = false := by simp [is_digit, hz, h19]
        simp [number_leading_minus, hz, h19, number_unmatched, scan_integer_not_digit _ _ hd]

/-- The function `match_number` computes the closed form `scan_number`; in
particular its final assertion never fails. -/
theorem match_number_eq (input : List Char) : match_number input = some (scan_number input) := by
  rw [match_number_unfold]
  cases input with
  | nil => simp [number_initial, number_unmatched, scan_number]
  | cons c r =>
    by_cases hm : c = '-'
    · subst hm
      simpa [number_initial, scan_number] using number_body_eq r 1
    · by_cases hz : c = '0'
      · subst hz
        simp [number_initial, scan_number, number_leading_minus, number_integer_leading_zero,
          number_integer_loop_eq, number_from_decimal_integer_stop,
          scan_integer_digit _ _ is_digit_zero]
      · by_cases h19 : is_digit_1_9 c = true
        · simp [number_initial, scan_number, hm, hz, h19, number_leading_minus,
            number_integer_integer, number_integer_loop_eq, number_from_decimal_integer_stop,
            scan_integer_digit _ _ (is_digit_of_1_9 h19)]
        · have hd : is_digit c = false := by simp [is_digit, hz, h19]
          simp [number_initial, scan_number, hm, hz, h19, number_unmatched,
            scan_integer_not_digit _ _ hd]

/-! ## The relaxed number grammar -/

theorem number_follow_no_digit {t : List Char} (h : number_follow t) : no_digit_head t :=
  fun c hc => (h c hc).1

theorem no_digit_head_nil : no_digit_head [] := by simp [no_digit_head]

theorem no_digit_head_cons {c : Char} (r : List Char) (h : is_digit c = false) :
    no_digit_head (c :: r) := by
  simpa [no_digit_head] using h

theorem dropWhile_digits_append {ds r : List Char} (hds : ∀ c ∈ ds, is_digit c = true)
    (hr : no_digit_head r) : (ds ++ r).dropWhile is_digit = r := by
  induction ds with
  | nil =>
    cases r with
    | nil => rfl
    | cons c r =>
      have : is_digit c = false := by simpa [no_digit_head] using hr
      simp [this]
  | cons d ds ih =>
    have hd : is_digit d = true := hds d (List.mem_cons_self _ _)
    have := ih (fun c hc => hds c (List.mem_cons_of_mem _ hc))
    simpa [List.dropWhile_cons_of_pos, hd] using this

theorem digit_run_digits_append {ds r : List Char} (hds : ∀ c ∈ ds, is_digit c = true)
    (hr : no_digit_head r) : digit_run (ds ++ r) = ds.length := by
  induction ds with
  | nil =>
    cases r with
    | nil => rfl
    | cons c r =>
      have : is_digit c = false := by simpa [no_digit_head] using hr
      simp [digit_run, this]
  | cons d ds ih =>
    have hd : is_digit d = true := hds d (List.mem_cons_self _ _)
    have := ih (fun c hc => hds c (List.mem_cons_of_mem _ hc))
    simp [digit_run_cons_pos _ hd, this]

theorem is_digits_length_pos {ds : List Char} (h : is_digits ds) : 0 < ds.length :=
  List.length_pos.mpr h.1

theorem scan_integer_digits_append {ds r : List Char} (n : Nat) (hds : is_digits ds)
    (hr : no_digit_head r) :
    scan_integer (ds ++ r) n = scan_after_integer r (n + ds.length) := by
  have hpos := is_digits_length_pos hds
  simp only [scan_integer, digit_run_digits_append hds.2 hr, dropWhile_digits_append hds.2 hr]
  rw [if_neg (by omega)]

theorem scan_fraction_digits_append {ds r : List Char} (n : Nat) (hds : is_digits ds)
    (hr : no_digit_head r) :
    scan_fraction (ds ++ r) n = scan_after_fraction r (n + ds.length) := by
  have hpos := is_digits_length_pos hds
  simp only [scan_fraction, digit_run_digits_append hds.2 hr, dropWhile_digits_append hds.2 hr]
  rw [if_neg (by omega)]

theorem scan_exponent_digits_append {ds r : List Char} (n : Nat) (hds : is_digits ds)
    (hr : no_digit_head r) :
    scan_exponent (ds ++ r) n = ⟨match_result.complete, token_kind.number, n + ds.length⟩ := by
  obtain ⟨hne, hall⟩ := hds
  cases ds with
  | nil => exact absurd rfl hne
  | cons d ds =>
    have hd : is_digit d = true := hall d (List.mem_cons_self _ _)
    have hrun := digit_run_digits_append (fun c hc => hall c (List.mem_cons_of_mem _ hc)) hr
    simp [scan_exponent, hd, hrun]
    omega

theorem is_sign_not_digit {c : Char} (h : is_sign c = true) : is_digit c = false := by
  have : c = '+' ∨ c = '-' := by simpa [is_sign] using h
  rcases this with rfl | rfl <;> decide

theorem is_exp_marker_not_digit {c : Char} (h : is_exp_marker c = true) : is_digit c = false := by
  have : c = 'e' ∨ c = 'E' := by simpa [is_exp_marker] using h
  rcases this with rfl | rfl <;> decide

theorem is_exp_marker_ne_dot {c : Char} (h : is_exp_marker c = true) : c ≠ '.' := by
  have : c = 'e' ∨ c = 'E' := by simpa [is_exp_marker] using h
  rcases this with rfl | rfl <;> decide

theorem is_digit_ne_minus {c : Char} (h : is_digit c = true) : c ≠ '-' := by
  rintro rfl
  exact absurd h (by decide)

theorem scan_exponent_sign_digits_append {c : Char} {ds r : List Char} (n : Nat)
    (hc : is_sign c = true) (hds : is_digits ds) (hr : no_digit_head r) :
    scan_exponent (c :: (ds ++ r)) n =
      ⟨match_result.complete, token_kind.number, n + 1 + ds.length⟩ := by
  have hpos := is_digits_length_pos hds
  have hrun := digit_run_digits_append hds.2 hr
  simp [scan_exponent, is_sign_not_digit hc, hc, hrun]
  exact hds.1

theorem scan_after_fraction_follow {t : List Char} (n : Nat) (ht : number_follow t) :
    scan_after_fraction t n = ⟨match_result.complete, token_kind.number, n⟩ := by
  cases t with
  | nil => rfl
  | cons c r =>
    have : is_exp_marker c = false := by
      have := ht c (by simp)
      exact this.2.2
    simp [scan_after_fraction, this]

theorem scan_after_integer_follow {t : List Char} (n : Nat) (ht : number_follow t) :
    scan_after_integer t n = ⟨match_result.complete, token_kind.number, n⟩ := by
  cases t with
  | nil => rfl
  | cons c r =>
    have h := ht c (by simp)
    simp [scan_after_integer, h.2.1, h.2.2]

theorem exponent_word_head {x t : List Char} (hx : exponent_word x) :
    ∃ e r, x ++ t = e :: r ∧ is_exp_marker e = true := by
  obtain ⟨e, sg, es, rfl, he, -, -⟩ := hx
  exact ⟨e, _, rfl, he⟩

/-- An optional exponent followed by `t` does not begin with a digit. -/
theorem no_digit_head_exponent {x t : List Char} (hx : x = [] ∨ exponent_word x)
    (ht : number_follow t) : no_digit_head (x ++ t) := by
  rcases hx with rfl | hx
  · simpa using number_follow_no_digit ht
  · obtain ⟨e, r, h, he⟩ := exponent_word_head (t := t) hx
    rw [h]
    exact no_digit_head_cons _ (is_exp_marker_not_digit he)

/-- The scan right after an exponent marker, on a sign, digits and `t`. -/
theorem scan_exponent_word {sg es t : List Char} (n : Nat)
    (hsg : sg = [] ∨ ∃ c, sg = [c] ∧ is_sign c = true) (hes : is_digits es)
    (ht : number_follow t) :
    scan_exponent ((sg ++ es) ++ t) n =
      ⟨match_result.complete, token_kind.number, n + (sg ++ es).length⟩ := by
  have hnd := number_follow_no_digit ht
  rcases hsg with rfl | ⟨c, rfl, hc⟩
  · simpa using scan_exponent_digits_append n hes hnd
  · have := scan_exponent_sign_digits_append n hc hes hnd
    simp only [List.singleton_append, List.cons_append, List.nil_append, List.length_cons]
      at this ⊢
    rw [this]
    congr 1; omega

/-- The scan after the fraction digits, on an optional exponent and `t`. -/
theorem scan_after_fraction_exponent {x t : List Char} (n : Nat)
    (hx : x = [] ∨ exponent_word x) (ht : number_follow t) :
    scan_after_fraction (x ++ t) n =
      ⟨match_result.complete, token_kind.number, n + x.length⟩ := by
  rcases hx with rfl | ⟨e, sg, es, rfl, he, hsg, hes⟩
  · simpa using scan_after_fraction_follow n ht
  · simp only [List.cons_append, scan_after_fraction, he, if_true, List.length_cons]
    rw [scan_exponent_word _ hsg hes ht]
    congr 1; omega

/-- The scan after the integer digits, on an optional exponent and `t`. -/
theorem scan_after_integer_exponent {x t : List Char} (n : Nat)
    (hx : x = [] ∨ exponent_word x) (ht : number_follow t) :
    scan_after_integer (x ++ t) n =
      ⟨match_result.complete, token_kind.number, n + x.length⟩ := by
  rcases hx with rfl | ⟨e, sg, es, rfl, he, hsg, hes⟩
  · simpa using scan_after_integer_follow n ht
  · have hdot := is_exp_marker_ne_dot he
    simp only [List.cons_append, scan_after_integer, he, if_true, List.length_cons, beq_iff_eq,
      hdot, if_false]
    rw [scan_exponent_word _ hsg hes ht]
    congr 1; omega

/-- The scan after the integer digits, on an optional fraction, an optional
exponent and `t`. -/
theorem scan_after_integer_fraction {f x t : List Char} (n : Nat)
    (hf : f = [] ∨ fraction_word f) (hx : x = [] ∨ exponent_word x) (ht : number_follow t) :
    scan_after_integer ((f ++ x) ++ t) n =
      ⟨match_result.complete, token_kind.number, n + (f ++ x).length⟩ := by
  rcases hf with rfl | ⟨fs, rfl, hfs⟩
  · simpa using scan_after_integer_exponent n hx ht
  · have h := scan_fraction_digits_append (n + 1) hfs (no_digit_head_exponent hx ht)
    simp only [List.cons_append, List.append_assoc, scan_after_integer, beq_self_eq_true, if_true,
      h, scan_after_fraction_exponent _ hx ht, List.length_cons, List.length_append]
    congr 1; omega

theorem no_digit_head_fraction {f x t : List Char} (hf : f = [] ∨ fraction_word f)
    (hx : x = [] ∨ exponent_word x) (ht : number_follow t) : no_digit_head ((f ++ x) ++ t) := by
  rcases hf with rfl | ⟨fs, rfl, -⟩
  · simpa using no_digit_head_exponent hx ht
  · exact no_digit_head_cons _ (by decide)

/-- The closed form on a word of the grammar followed by `t`. -/
theorem scan_number_word {w t : List Char} (hw : number_word w) (ht : number_follow t) :
    scan_number (w ++ t) = ⟨match_result.complete, token_kind.number, w.length⟩ := by
  obtain ⟨sign, int, frac, exp, rfl, hs, hi, hf, hx⟩ := hw
  have hbody : ∀ n, scan_integer (int ++ ((frac ++ exp) ++ t)) n =
      ⟨match_result.complete, token_kind.number, n + (int ++ (frac ++ exp)).length⟩ := by
    intro n
    rw [scan_integer_digits_append n hi (no_digit_head_fraction hf hx ht),
      scan_after_integer_fraction _ hf hx ht]
    simp only [List.length_append]
    congr 1; omega
  rcases hs with rfl | rfl
  · obtain ⟨hne, hall⟩ := hi
    cases int with
    | nil => exact absurd rfl hne
    | cons d ds =>
      have hd : d ≠ '-' := is_digit_ne_minus (hall d (List.mem_cons_self _ _))
      have := hbody 0
      simp only [List.nil_append, List.cons_append, List.append_assoc, scan_number, beq_iff_eq,
        hd, if_false] at this ⊢
      simpa using this
  · have := hbody 1
    simp only [List.singleton_append, List.cons_append, List.nil_append, List.append_assoc,
      scan_number, beq_self_eq_true, if_true, List.length_cons] at this ⊢
    rw [this]
    congr 1; omega

/-! ## When the number scan fails -/

theorem digits_split (s : List Char) :
    ∃ ds r, s = ds ++ r ∧ (∀ c ∈ ds, is_digit c = true) ∧ no_digit_head r ∧
      digit_run s = ds.length ∧ s.dropWhile is_digit = r := by
  induction s with
  | nil => exact ⟨[], [], rfl, by simp, no_digit_head_nil, rfl, rfl⟩
  | cons c s ih =>
    by_cases h : is_digit c = true
    · obtain ⟨ds, r, hs, hall, hr, hrun, hdrop⟩ := ih
      refine ⟨c :: ds, r, by simp [hs], ?_, hr, ?_, ?_⟩
      · intro x hx
        rcases List.mem_cons.mp hx with rfl | hx
        · exact h
        · exact hall x hx
      · simp [digit_run_cons_pos _ h, hrun]
      · simp [List.dropWhile_cons_of_pos, h, hdrop]
    · have h0 : is_digit c = false := by simpa using h
      exact ⟨[], c :: s, rfl, by simp, no_digit_head_cons _ h0, digit_run_cons_neg _ h0,
        by simp [h0]⟩

theorem digit_run_eq_zero_iff (s : List Char) : digit_run s = 0 ↔ no_digit_head s := by
  cases s with
  | nil => simp [digit_run_nil, no_digit_head_nil]
  | cons c s =>
    by_cases h : is_digit c = true
    · simp [digit_run_cons_pos _ h, no_digit_head, h]
    · have h0 : is_digit c = false := by simpa using h
      simp [digit_run_cons_neg _ h0, no_digit_head, h0]

theorem no_digit_head_cons_iff (c : Char) (r : List Char) :
    no_digit_head (c :: r) ↔ is_digit c = false := by
  simp [no_digit_head]

theorem scan_exponent_unmatched_iff (r : List Char) (n : Nat) :
    (scan_exponent r n).result = match_result.unmatched ↔ exponent_rejected r := by
  cases r with
  | nil => simp [scan_exponent, exponent_rejected, no_digit_head_nil]
  | cons c r =>
    by_cases hd : is_digit c = true
    · simp [scan_exponent, exponent_rejected, hd, no_digit_head_cons_iff]
    · have hd0 : is_digit c = false := by simpa using hd
      by_cases hs : is_sign c = true
      · by_cases hr : digit_run r = 0
        · have := (digit_run_eq_zero_iff r).mp hr
          simp [scan_exponent, exponent_rejected, hd0, hs, hr, no_digit_head_cons_iff, this]
        · have : ¬ no_digit_head r := fun h => hr ((digit_run_eq_zero_iff r).mpr h)
          simp [scan_exponent, exponent_rejected, hd0, hs, hr, no_digit_head_cons_iff, this]
      · simp [scan_exponent, exponent_rejected, hd0, hs, no_digit_head_cons_iff]

theorem scan_after_fraction_unmatched_iff (r : List Char) (n : Nat) :
    (scan_after_fraction r n).result = match_result.unmatched ↔
      ∃ e r2, r = e :: r2 ∧ is_exp_marker e = true ∧ exponent_rejected r2 := by
  cases r with
  | nil => simp [scan_after_fraction]
  | cons c r =>
    by_cases he : is_exp_marker c = true
    · simp only [scan_after_fraction, he, if_true, scan_exponent_unmatched_iff]
      constructor
      · intro h
        exact ⟨c, r, rfl, he, h⟩
      · rintro ⟨e, r2, h, -, hrej⟩
        obtain ⟨-, rfl⟩ : c = e ∧ r = r2 := by simpa using h
        exact hrej
    · simp only [scan_after_fraction, he]
      constructor
      · intro h
        exact absurd h (by simp)
      · rintro ⟨e, r2, h, he2, -⟩
        obtain ⟨rfl, -⟩ : c = e ∧ r = r2 := by simpa using h
        exact absurd he2 he

theorem scan_fraction_unmatched_iff (r : List Char) (n : Nat) :
    (scan_fraction r n).result = match_result.unmatched ↔
      no_digit_head r ∨
      ∃ fs e r2, r = fs ++ e :: r2 ∧ is_digits fs ∧ is_exp_marker e = true ∧
        exponent_rejected r2 := by
  obtain ⟨ds, t, hs, hall, ht, hrun, hdrop⟩ := digits_split r
  constructor
  · intro h
    by_cases h0 : digit_run r = 0
    · exact Or.inl ((digit_run_eq_zero_iff r).mp h0)
    · right
      simp only [scan_fraction, h0, if_false, hdrop] at h
      obtain ⟨e, r2, rfl, he, hrej⟩ := (scan_after_fraction_unmatched_iff _ _).mp h
      refine ⟨ds, e, r2, hs, ⟨?_, hall⟩, he, hrej⟩
      rintro rfl
      exact h0 (by simpa using hrun)
  · rintro (h | ⟨fs, e, r2, rfl, hfs, he, hrej⟩)
    · simp [scan_fraction, (digit_run_eq_zero_iff r).mpr h]
    · rw [scan_fraction_digits_append n hfs (no_digit_head_cons _ (is_exp_marker_not_digit he))]
      exact (scan_after_fraction_unmatched_iff _ _).mpr ⟨e, r2, rfl, he, hrej⟩

theorem scan_after_integer_unmatched_iff (r : List Char) (n : Nat) :
    (scan_after_integer r n).result = match_result.unmatched ↔
      (∃ r1, r = '.' :: r1 ∧ no_digit_head r1) ∨
      ∃ f e r2, r = f ++ e :: r2 ∧ (f = [] ∨ fraction_word f) ∧ is_exp_marker e = true ∧
        exponent_rejected r2 := by
  cases r with
  | nil => simp [scan_after_integer]
  | cons c r =>
    by_cases hp : c = '.'
    · subst hp
      simp only [scan_after_integer, beq_self_eq_true, if_true, scan_fraction_unmatched_iff]
      constructor
      · rintro (h | ⟨fs, e, r2, rfl, hfs, he, hrej⟩)
        · exact Or.inl ⟨r, rfl, h⟩
        · exact Or.inr ⟨'.' :: fs, e, r2, rfl, Or.inr ⟨fs, rfl, hfs⟩, he, hrej⟩
      · rintro (⟨r1, h, hr1⟩ | ⟨f, e, r2, h, hf, he, hrej⟩)
        · obtain rfl : r = r1 := by simpa using h
          exact Or.inl hr1
        · rcases hf with rfl | ⟨fs, rfl, hfs⟩
          · have : '.' = e := by simpa using (List.cons.inj h).1
            subst this
            exact absurd he (by decide)
          · have : r = fs ++ e :: r2 := by simpa using h
            exact Or.inr ⟨fs, e, r2, this, hfs, he, hrej⟩
    · by_cases he : is_exp_marker c = true
      · simp only [scan_after_integer, beq_iff_eq, hp, if_false, he, if_true,
          scan_exponent_unmatched_iff]
        constructor
        · intro h
          exact Or.inr ⟨[], c, r, rfl, Or.inl rfl, he, h⟩
        · rintro (⟨r1, h, -⟩ | ⟨f, e, r2, h, hf, -, hrej⟩)
          · exact absurd (List.cons.inj h).1 hp
          · rcases hf with rfl | ⟨fs, rfl, -⟩
            · obtain ⟨-, rfl⟩ : c = e ∧ r = r2 := by simpa using h
              exact hrej
            · exact absurd (by simpa using (List.cons.inj h).1) hp
      · simp only [scan_after_integer, beq_iff_eq, hp, if_false, he]
        constructor
        · intro h
          exact absurd h (by simp)
        · rintro (⟨r1, h, -⟩ | ⟨f, e, r2, h, hf, he2, -⟩)
          · exact absurd (List.cons.inj h).1 hp
          · rcases hf with rfl | ⟨fs, rfl, -⟩
            · obtain ⟨rfl, -⟩ : c = e ∧ r = r2 := by simpa using h
              exact absurd he2 he
            · exact absurd (by simpa using (List.cons.inj h).1) hp

theorem no_digit_head_fraction_marker {f : List Char} {e : Char} (r : List Char)
    (hf : f = [] ∨ fraction_word f) (he : is_exp_marker e = true) :
    no_digit_head (f ++ e :: r) := by
  rcases hf with rfl | ⟨fs, rfl, -⟩
  · exact no_digit_head_cons _ (is_exp_marker_not_digit he)
  · exact no_digit_head_cons _ (by decide)

theorem scan_integer_unmatched_iff (body : List Char) (n : Nat) :
    (scan_integer body n).result = match_result.unmatched ↔
      no_digit_head body ∨ body_rejected_fraction body ∨ body_rejected_exponent body := by
  obtain ⟨ds, t, hs, hall, ht, hrun, hdrop⟩ := digits_split body
  constructor
  · intro h
    by_cases h0 : digit_run body = 0
    · exact Or.inl ((digit_run_eq_zero_iff body).mp h0)
    · right
      have hds : is_digits ds := by
        refine ⟨?_, hall⟩
        rintro rfl
        exact h0 (by simpa using hrun)
      simp only [scan_integer, h0, if_false, hdrop] at h
      rcases (scan_after_integer_unmatched_iff _ _).mp h with
        ⟨r1, rfl, hr1⟩ | ⟨f, e, r2, rfl, hf, he, hrej⟩
      · exact Or.inl ⟨ds, r1, hs, hds, hr1⟩
      · exact Or.inr ⟨ds, f, e, r2, hs, hds, hf, he, hrej⟩
  · rintro (h | ⟨ds2, r, rfl, hds2, hr⟩ | ⟨ds2, f, e, r, rfl, hds2, hf, he, hrej⟩)
    · simp [scan_integer, (digit_run_eq_zero_iff body).mpr h]
    · rw [scan_integer_digits_append n hds2 (no_digit_head_cons _ (by decide))]
      exact (scan_after_integer_unmatched_iff _ _).mpr (Or.inl ⟨r, rfl, hr⟩)
    · rw [scan_integer_digits_append n hds2 (no_digit_head_fraction_marker r hf he)]
      exact (scan_after_integer_unmatched_iff _ _).mpr (Or.inr ⟨f, e, r, rfl, hf, he, hrej⟩)

theorem not_digit_head_iff (body : List Char) : ¬ digit_head body ↔ no_digit_head body := by
  cases body with
  | nil => simp [digit_head, no_digit_head_nil]
  | cons c r => simp [digit_head, no_digit_head_cons_iff]

theorem is_digits_digit_head {ds : List Char} (r : List Char) (h : is_digits ds) :
    digit_head (ds ++ r) := by
  obtain ⟨hne, hall⟩ := h
  cases ds with
  | nil => exact absurd rfl hne
  | cons d ds => exact ⟨d, ds ++ r, rfl, hall d (List.mem_cons_self _ _)⟩

/-- A property of the bytes after an optional minus sign that forces them to
begin with a digit can be read off the input with its minus sign removed. -/
theorem opt_minus_split_iff (P : List Char → Prop) (hP : ∀ b, P b → digit_head b)
    (input : List Char) :
    (∃ sgn body, input = sgn ++ body ∧ opt_minus sgn ∧ P body) ↔ P (strip_minus input) := by
  constructor
  · rintro ⟨sgn, body, rfl, hs | hs, hb⟩
    · subst hs
      obtain ⟨d, r, rfl, hd⟩ := hP body hb
      simpa [strip_minus, is_digit_ne_minus hd] using hb
    · subst hs
      simpa [strip_minus] using hb
  · intro h
    cases input with
    | nil => exact ⟨[], [], rfl, Or.inl rfl, h⟩
    | cons c r =>
      by_cases hc : c = '-'
      · subst hc
        exact ⟨['-'], r, rfl, Or.inr rfl, by simpa [strip_minus] using h⟩
      · exact ⟨[], c :: r, rfl, Or.inl rfl, by simpa [strip_minus, hc] using h⟩

theorem scan_number_strip_minus (input : List Char) :
    ∃ n, scan_number input = scan_integer (strip_minus input) n := by
  cases input with
  | nil => exact ⟨0, by simp [scan_number, strip_minus, scan_integer_nil]⟩
  | cons c r =>
    by_cases hc : c = '-'
    · exact ⟨1, by simp [scan_number, strip_minus, hc]⟩
    · exact ⟨0, by simp [scan_number, strip_minus, hc]⟩

theorem number_rejected_start_iff (input : List Char) :
    number_rejected_start input ↔ no_digit_head (strip_minus input) := by
  rw [← not_digit_head_iff, ← opt_minus_split_iff digit_head (fun _ h => h) input]
  unfold number_rejected_start digit_head
  constructor
  · rintro h ⟨sgn, body, hi, hs, d, r, rfl, hd⟩
    exact h ⟨sgn, d, r, hi, hs, hd⟩
  · rintro h ⟨sgn, d, r, hi, hs, hd⟩
    exact h ⟨sgn, d :: r, hi, hs, d, r, rfl, hd⟩

theorem scan_number_unmatched_iff (input : List Char) :
    (scan_number input).result = match_result.unmatched ↔
      number_rejected_start input ∨ number_rejected_fraction input ∨
        number_rejected_exponent input := by
  obtain ⟨n, hn⟩ := scan_number_strip_minus input
  rw [hn, scan_integer_unmatched_iff, number_rejected_start_iff]
  unfold number_rejected_fraction number_rejected_exponent
  rw [opt_minus_split_iff body_rejected_fraction
      (fun b ⟨ds, r, hb, hds, _⟩ => hb ▸ is_digits_digit_head _ hds),
    opt_minus_split_iff body_rejected_exponent
      (fun b ⟨ds, f, e, r, hb, hds, _⟩ => hb ▸ is_digits_digit_head _ hds)]

theorem scan_number_kind (input : List Char) : (scan_number input).kind = token_kind.number := by
  have hx : ∀ r n, (scan_exponent r n).kind = token_kind.number := by
    intro r n
    unfold scan_exponent
    split
    · rfl
    · split
      · rfl
      · split
        · split <;> rfl
        · rfl
  have haf : ∀ r n, (scan_after_fraction r n).kind = token_kind.number := by
    intro r n
    unfold scan_after_fraction
    split
    · rfl
    · split
      · exact hx _ _
      · rfl
  have hf : ∀ r n, (scan_fraction r n).kind = token_kind.number := by
    intro r n
    unfold scan_fraction
    split
    · rfl
    · exact haf _ _
  have hai : ∀ r n, (scan_after_integer r n).kind = token_kind.number := by
    intro r n
    unfold scan_after_integer
    split
    · rfl
    · split
      · exact hf _ _
      · split
        · exact hx _ _
        · rfl
  have hi : ∀ r n, (scan_integer r n).kind = token_kind.number := by
    intro r n
    unfold scan_integer
    split
    · rfl
    · exact hai _ _
  obtain ⟨n, hn⟩ := scan_number_strip_minus input
  rw [hn]
  exact hi _ _

/-! ## The string scan -/

theorem drop_eq_cons {s : List Char} {n : Nat} {c : Char} {rest : List Char}
    (h : s.drop n = c :: rest) : s[n]? = some c ∧ s.drop (n + 1) = rest := by
  constructor
  · have := List.getElem?_drop s n 0
    rw [h] at this
    simpa using this.symm
  · have := List.drop_drop 1 n s
    rw [h] at this
    simpa using this.symm

theorem match_string_loop_quote (rest : List Char) (n : Nat) :
    match_string_loop ('"' :: rest) n = (match_result.complete, n + 1) := by
  rw [match_string_loop.eq_def]
  simp

theorem match_string_loop_escape (d : Char) (rest : List Char) (n : Nat) :
    match_string_loop ('\\' :: d :: rest) n = match_string_loop rest (n + 2) := by
  rw [match_string_loop.eq_def]
  simp

theorem match_string_loop_escape_end (n : Nat) :
    match_string_loop ['\\'] n = (match_result.unmatched, n) := by
  rw [match_string_loop.eq_def]
  simp

theorem match_string_loop_plain {c : Char} (rest : List Char) (n : Nat) (hq : c ≠ '"')
    (hb : c ≠ '\\') : match_string_loop (c :: rest) n = match_string_loop rest (n + 1) := by
  rw [match_string_loop.eq_def]
  simp [hq, hb]

theorem match_string_loop_nil (n : Nat) :
    match_string_loop [] n = (match_result.unmatched, n) := by
  rw [match_string_loop.eq_def]

/-- The loop started at index 1 arrives at every index that the scan arrives at. -/
theorem match_string_loop_reaches {s : List Char} {i : Nat} (h : string_scan_at s i) :
    match_string_loop (s.drop 1) 1 = match_string_loop (s.drop i) i := by
  induction h with
  | start => rfl
  | @plain i c _ hc hq hb ih =>
    rw [ih]
    have hi : i < s.length := by
      by_contra hlt
      rw [List.getElem?_eq_none (by omega)] at hc
      exact absurd hc (by simp)
    rw [List.drop_eq_getElem_cons hi]
    have : s[i] = c := by
      rw [List.getElem?_eq_getElem hi] at hc
      exact Option.some.inj hc
    rw [this, match_string_loop_plain _ _ hq hb]
  | @escape i d _ hc hd ih =>
    rw [ih]
    have hi : i + 1 < s.length := by
      by_contra hlt
      rw [List.getElem?_eq_none (by omega)] at hd
      exact absurd hd (by simp)
    have hi0 : i < s.length := by omega
    rw [List.drop_eq_getElem_cons hi0, List.drop_eq_getElem_cons hi]
    have : s[i] = '\\' := by
      rw [List.getElem?_eq_getElem hi0] at hc
      exact Option.some.inj hc
    rw [this, match_string_loop_escape]

/-- A `complete` result of the loop is a `'"'` at an index the scan arrives at. -/
theorem match_string_loop_complete {s : List Char} :
    ∀ (k : Nat) (rest : List Char) (n : Nat), rest.length ≤ k → s.drop n = rest →
      string_scan_at s n → (match_string_loop rest n).1 = match_result.complete →
      ∃ i, string_scan_at s i ∧ s[i]? = some '"' ∧ (match_string_loop rest n).2 = i + 1 := by
  intro k
  induction k with
  | zero =>
    intro rest n hk hdrop hn hres
    have : rest = [] := List.length_eq_zero.mp (by omega)
    subst this
    simp [match_string_loop_nil] at hres
  | succ k ih =>
    intro rest n hk hdrop hn hres
    cases rest with
    | nil => simp [match_string_loop_nil] at hres
    | cons c rest =>
      obtain ⟨hc, hdrop1⟩ := drop_eq_cons hdrop
      by_cases hq : c = '"'
      · subst hq
        exact ⟨n, hn, hc, by simp [match_string_loop_quote]⟩
      · by_cases hb : c = '\\'
        · subst hb
          cases rest with
          | nil => simp [match_string_loop_escape_end] at hres
          | cons d rest2 =>
            obtain ⟨hd, hdrop2⟩ := drop_eq_cons hdrop1
            have hstep : match_string_loop ('\\' :: d :: rest2) n =
                match_string_loop rest2 (n + 2) := match_string_loop_escape d rest2 n
            rw [hstep] at hres ⊢
            exact ih rest2 (n + 2) (by simp at hk; omega) hdrop2
              (string_scan_at.escape hn hc hd) hres
        · have hstep : match_string_loop (c :: rest) n = match_string_loop rest (n + 1) :=
            match_string_loop_plain rest n hq hb
          rw [hstep] at hres ⊢
          exact ih rest (n + 1) (by simp at hk; omega) hdrop1
            (string_scan_at.plain hn hc hq hb) hres

/-! ## The comment scan -/

theorem closer_at_cons_succ (p : Char) (s : List Char) (k : Nat) :
    closer_at (p :: s) (k + 1) ↔ closer_at s k := by
  simp [closer_at]

theorem closer_at_cons_zero (p c : Char) (s : List Char) :
    closer_at (p :: c :: s) 0 ↔ p = '*' ∧ c = '/' := by
  simp [closer_at]

theorem closer_at_lt {s : List Char} {i : Nat} (h : closer_at s i) : i + 1 < s.length := by
  by_contra hlt
  have := h.2
  rw [List.getElem?_eq_none (by omega)] at this
  exact absurd this (by simp)

/-- The loop entered with the previous byte `p` (the flag `saw_asterisk` is
`p == '*'`) stops at the first `"*/"` of `p :: rest`, and runs to the end of the
buffer when there is none. -/
theorem match_comment_loop_spec (rest : List Char) :
    ∀ (p : Char) (n : Nat),
      (∀ k, closer_at (p :: rest) k → (∀ j, j < k → ¬ closer_at (p :: rest) j) →
        match_comment_loop rest (p == '*') n = (match_result.complete, n + k + 1)) ∧
      ((¬ ∃ k, closer_at (p :: rest) k) →
        match_comment_loop rest (p == '*') n = (match_result.unmatched, n + rest.length)) := by
  induction rest with
  | nil =>
    intro p n
    constructor
    · intro k hk
      have := closer_at_lt hk
      simp at this
    · intro _
      simp [match_comment_loop]
  | cons c rest ih =>
    intro p n
    have hshift : ∀ k, closer_at (p :: c :: rest) (k + 1) ↔ closer_at (c :: rest) k :=
      fun k => closer_at_cons_succ p (c :: rest) k
    by_cases hstop : p = '*' ∧ c = '/'
    · obtain ⟨rfl, rfl⟩ := hstop
      have h0 : closer_at ('*' :: '/' :: rest) 0 := (closer_at_cons_zero _ _ _).mpr ⟨rfl, rfl⟩
      constructor
      · intro k _ hmin
        have hk0 : k = 0 := by
          by_contra hne
          exact hmin 0 (Nat.pos_of_ne_zero hne) h0
        subst hk0
        simp [match_comment_loop]
      · intro hno
        exact absurd ⟨0, h0⟩ hno
    · have h0 : ¬ closer_at (p :: c :: rest) 0 := fun h => hstop ((closer_at_cons_zero _ _ _).mp h)
      have hstep : match_comment_loop (c :: rest) (p == '*') n =
          match_comment_loop rest (c == '*') (n + 1) := by
        by_cases hc : c = '*'
        · simp [match_comment_loop, hc]
        · have hcb : (c == '*') = false := by simpa using hc
          by_cases hp : p = '*'
          · have hc2 : c ≠ '/' := fun h => hstop ⟨hp, h⟩
            simp [match_comment_loop, hc, hp, hc2, hcb]
          · simp [match_comment_loop, hc, hp, hcb]
      rw [hstep]
      obtain ⟨ih1, ih2⟩ := ih c (n + 1)
      constructor
      · intro k hk hmin
        cases k with
        | zero => exact absurd hk h0
        | succ k =>
          rw [ih1 k ((hshift k).mp hk)
            (fun j hj hcj => hmin (j + 1) (by omega) ((hshift j).mpr hcj))]
          simp only [Prod.mk.injEq, true_and]
          omega
      · intro hno
        rw [ih2 (fun ⟨k, hk⟩ => hno ⟨k + 1, (hshift k).mpr hk⟩)]
        simp only [List.length_cons, Prod.mk.injEq, true_and]
        omega

/-- The result of `match_comment` on an input that begins with `"/*"`. -/
theorem match_comment_open (r : List Char) :
    match_comment ('/' :: '*' :: r) =
      some ⟨(match_comment_loop r false 2).1, token_kind.comment,
        (match_comment_loop r false 2).2⟩ := by
  simp [match_comment]

theorem closer_at_open (r : List Char) (k : Nat) :
    closer_at ('/' :: '*' :: r) (k + 2) ↔ closer_at ('/' :: r) (k + 1) := by
  simp [closer_at]

/-- On `"/*"` followed by `r`, the loop stops just past the first `"*/"` that
starts at an index `>= 2`. -/
theorem match_comment_loop_first {r : List Char} {i : Nat}
    (h : first_closer_at ('/' :: '*' :: r) i) :
    match_comment_loop r false 2 = (match_result.complete, i + 2) := by
  obtain ⟨hi, hc, hmin⟩ := h
  obtain ⟨k, rfl⟩ : ∃ k, i = k + 2 := ⟨i - 2, by omega⟩
  have h1 := (match_comment_loop_spec r '/' 2).1 (k + 1) ((closer_at_open r k).mp hc) (by
    intro j hj hcj
    cases j with
    | zero =>
      have := hcj.1
      simp at this
    | succ j => exact hmin (j + 2) (by omega) (by omega) ((closer_at_open r j).mpr hcj))
  have hflag : ('/' == '*') = false := by decide
  rw [hflag] at h1
  rw [h1]
  simp only [Prod.mk.injEq, true_and]
  omega

/-- On `"/*"` followed by `r` with no `"*/"` from index 2 on, the loop runs to
the end of the buffer. -/
theorem match_comment_loop_none {r : List Char} (h : ¬ has_closer ('/' :: '*' :: r)) :
    match_comment_loop r false 2 = (match_result.unmatched, r.length + 2) := by
  have h1 := (match_comment_loop_spec r '/' 2).2 (by
    rintro ⟨k, hk⟩
    cases k with
    | zero =>
      have := hk.1
      simp at this
    | succ k =>
      have hc := (closer_at_open r k).mpr hk
      exact h ⟨k + 2, by have := closer_at_lt hc; omega, by omega, hc⟩)
  have hflag : ('/' == '*') = false := by decide
  rw [hflag] at h1
  rw [h1]
  simp only [Prod.mk.injEq, true_and]
  omega

/-- If `"*/"` occurs from index 2 on, it has a first occurrence. -/
theorem has_closer_first {s : List Char} (h : has_closer s) : ∃ i, first_closer_at s i := by
  classical
  have hex : ∃ i, 2 ≤ i ∧ closer_at s i := by
    obtain ⟨i, -, hi⟩ := h
    exact ⟨i, hi⟩
  refine ⟨Nat.find hex, (Nat.find_spec hex).1, (Nat.find_spec hex).2, ?_⟩
  intro j hj hlt hcj
  exact Nat.find_min hex hlt ⟨hj, hcj⟩

/-! ## Soundness of the number scan -/

theorem digits_split_pos {s : List Char} (h : digit_run s ≠ 0) :
    ∃ ds r, s = ds ++ r ∧ is_digits ds ∧ no_digit_head r ∧ digit_run s = ds.length ∧
      s.dropWhile is_digit = r := by
  obtain ⟨ds, r, hs, hall, hr, hrun, hdrop⟩ := digits_split s
  refine ⟨ds, r, hs, ⟨?_, hall⟩, hr, hrun, hdrop⟩
  rintro rfl
  exact h (by simpa using hrun)

theorem scan_exponent_sound {r : List Char} {n : Nat}
    (h : (scan_exponent r n).result = match_result.complete) :
    ∃ sg es t, r = (sg ++ es) ++ t ∧ (sg = [] ∨ ∃ c, sg = [c] ∧ is_sign c = true) ∧
      is_digits es ∧ no_digit_head t ∧ (scan_exponent r n).length = n + (sg ++ es).length := by
  cases r with
  | nil => simp [scan_exponent] at h
  | cons c r =>
    by_cases hd : is_digit c = true
    · have hrun : digit_run (c :: r) ≠ 0 := by simp [digit_run_cons_pos r hd]
      obtain ⟨ds, t, hs, hds, ht, hlen, -⟩ := digits_split_pos hrun
      refine ⟨[], ds, t, by simpa using hs, Or.inl rfl, hds, ht, ?_⟩
      rw [digit_run_cons_pos r hd] at hlen
      simp [scan_exponent, hd, ← hlen]
      omega
    · have hd0 : is_digit c = false := by simpa using hd
      by_cases hs : is_sign c = true
      · by_cases hrun : digit_run r = 0
        · simp [scan_exponent, hd0, hs, hrun] at h
        · obtain ⟨ds, t, hsplit, hds, ht, hlen, -⟩ := digits_split_pos hrun
          refine ⟨[c], ds, t, by simp [hsplit], Or.inr ⟨c, rfl, hs⟩, hds, ht, ?_⟩
          simp [scan_exponent, hd0, hs, hrun, ← hlen]
          omega
      · simp [scan_exponent, hd0, hs] at h

theorem scan_after_fraction_sound {r : List Char} {n : Nat} (hr : no_digit_head r)
    (h : (scan_after_fraction r n).result = match_result.complete) :
    ∃ x t, r = x ++ t ∧ (x = [] ∨ exponent_word x) ∧ no_digit_head t ∧
      (scan_after_fraction r n).length = n + x.length := by
  cases r with
  | nil => exact ⟨[], [], rfl, Or.inl rfl, no_digit_head_nil, by simp [scan_after_fraction]⟩
  | cons c r =>
    by_cases he : is_exp_marker c = true
    · simp only [scan_after_fraction, he, if_true] at h ⊢
      obtain ⟨sg, es, t, hs, hsg, hes, ht, hlen⟩ := scan_exponent_sound h
      refine ⟨c :: (sg ++ es), t, by simp [hs], Or.inr ⟨c, sg, es, rfl, he, hsg, hes⟩, ht, ?_⟩
      rw [hlen]
      simp only [List.length_cons]
      omega
    · exact ⟨[], c :: r, rfl, Or.inl rfl, hr, by simp [scan_after_fraction, he]⟩

theorem scan_fraction_sound {r : List Char} {n : Nat}
    (h : (scan_fraction r n).result = match_result.complete) :
    ∃ fs x t, r = fs ++ (x ++ t) ∧ is_digits fs ∧ (x = [] ∨ exponent_word x) ∧
      no_digit_head t ∧ (scan_fraction r n).length = n + fs.length + x.length := by
  by_cases hrun : digit_run r = 0
  · simp [scan_fraction, hrun] at h
  · obtain ⟨fs, r2, hs, hfs, hr2, hlen, hdrop⟩ := digits_split_pos hrun
    simp only [scan_fraction, if_neg hrun, hdrop] at h ⊢
    rw [hlen] at h ⊢
    obtain ⟨x, t, rfl, hx, ht, hl⟩ := scan_after_fraction_sound hr2 h
    exact ⟨fs, x, t, hs, hfs, hx, ht, hl⟩

theorem scan_after_integer_sound {r : List Char} {n : Nat} (hr : no_digit_head r)
    (h : (scan_after_integer r n).result = match_result.complete) :
    ∃ f x t, r = f ++ (x ++ t) ∧ (f = [] ∨ fraction_word f) ∧ (x = [] ∨ exponent_word x) ∧
      no_digit_head t ∧ (scan_after_integer r n).length = n + f.length + x.length := by
  cases r with
  | nil =>
    exact ⟨[], [], [], rfl, Or.inl rfl, Or.inl rfl, no_digit_head_nil,
      by simp [scan_after_integer]⟩
  | cons c r =>
    by_cases hp : c = '.'
    · subst hp
      simp only [scan_after_integer, beq_self_eq_true, if_true] at h ⊢
      obtain ⟨fs, x, t, hs, hfs, hx, ht, hl⟩ := scan_fraction_sound h
      refine ⟨'.' :: fs, x, t, by simp [hs], Or.inr ⟨fs, rfl, hfs⟩, hx, ht, ?_⟩
      rw [hl]
      simp only [List.length_cons]
      omega
    · by_cases he : is_exp_marker c = true
      · simp only [scan_after_integer, beq_iff_eq, hp, if_false, he, if_true] at h ⊢
        obtain ⟨sg, es, t, hs, hsg, hes, ht, hlen⟩ := scan_exponent_sound h
        refine ⟨[], c :: (sg ++ es), t, by simp [hs], Or.inl rfl,
          Or.inr ⟨c, sg, es, rfl, he, hsg, hes⟩, ht, ?_⟩
        rw [hlen]
        simp only [List.length_cons, List.length_nil]
        omega
      · exact ⟨[], [], c :: r, rfl, Or.inl rfl, Or.inl rfl, hr,
          by simp [scan_after_integer, hp, he]⟩

theorem scan_integer_sound {body : List Char} {n : Nat}
    (h : (scan_integer body n).result = match_result.complete) :
    ∃ ds f x t, body = ds ++ (f ++ (x ++ t)) ∧ is_digits ds ∧ (f = [] ∨ fraction_word f) ∧
      (x = [] ∨ exponent_word x) ∧ no_digit_head t ∧
      (scan_integer body n).length = n + ds.length + f.length + x.length := by
  by_cases hrun : digit_run body = 0
  · simp [scan_integer, hrun] at h
  · obtain ⟨ds, r2, hs, hds, hr2, hlen, hdrop⟩ := digits_split_pos hrun
    simp only [scan_integer, if_neg hrun, hdrop] at h ⊢
    rw [hlen] at h ⊢
    obtain ⟨f, x, t, rfl, hf, hx, ht, hl⟩ := scan_after_integer_sound hr2 h
    exact ⟨ds, f, x, t, hs, hds, hf, hx, ht, hl⟩

/-- A `complete` result of the closed form splits the input into a word of the
number grammar, of the reported length, and a rest that does not begin with a
digit. -/
theorem scan_number_sound {s : List Char}
    (h : (scan_number s).result = match_result.complete) :
    ∃ w t, s = w ++ t ∧ number_word w ∧ no_digit_head t ∧
      (scan_number s).length = w.length := by
  cases s with
  | nil => simp [scan_number] at h
  | cons c r =>
    by_cases hc : c = '-'
    · subst hc
      simp only [scan_number, beq_self_eq_true, if_true] at h ⊢
      obtain ⟨ds, f, x, t, hs, hds, hf, hx, ht, hl⟩ := scan_integer_sound h
      refine ⟨'-' :: (ds ++ (f ++ x)), t, by simp [hs],
        ⟨['-'], ds, f, x, rfl, Or.inr rfl, hds, hf, hx⟩, ht, ?_⟩
      rw [hl]
      simp only [List.length_cons, List.length_append]
      omega
    · simp only [scan_number, beq_iff_eq, hc, if_false] at h ⊢
      obtain ⟨ds, f, x, t, hs, hds, hf, hx, ht, hl⟩ := scan_integer_sound h
      refine ⟨ds ++ (f ++ x), t, by simp [hs], ⟨[], ds, f, x, rfl, Or.inl rfl, hds, hf, hx⟩,
        ht, ?_⟩
      rw [hl]
      simp only [List.length_append]
      omega

/-! ## Bounds on the reported length -/

theorem match_literal_loop_bounds (input literal : List Char) (n : Nat) :
    n ≤ (match_literal_loop input literal n).2 ∧
      (match_literal_loop input literal n).2 ≤ n + input.length := by
  induction input, literal, n using match_literal_loop.induct with
  | case1 t n => simp [match_literal_loop]
  | case2 l literal n => simp [match_literal_loop]
  | case3 b input l literal n h => simp [match_literal_loop, h]
  | case4 b input l literal n h ih =>
    have : match_literal_loop (b :: input) (l :: literal) n =
        match_literal_loop input literal (n + 1) := by
      simp only [match_literal_loop, h]
      simp
    rw [this]
    simp only [List.length_cons]
    omega

theorem match_string_loop_bounds (rest : List Char) (n : Nat) :
    n ≤ (match_string_loop rest n).2 ∧ (match_string_loop rest n).2 ≤ n + rest.length := by
  induction rest, n using match_string_loop.induct with
  | case1 n => simp [match_string_loop_nil]
  | case2 c rest n h =>
    obtain rfl : c = '"' := by simpa using h
    simp [match_string_loop_quote]
  | case3 c n _ h =>
    obtain rfl : c = '\\' := by simpa using h
    simp [match_string_loop_escape_end]
  | case4 c n _ h d rest ih =>
    obtain rfl : c = '\\' := by simpa using h
    rw [match_string_loop_escape]
    simp only [List.length_cons]
    omega
  | case5 c rest n hq hb ih =>
    rw [match_string_loop_plain rest n (by simpa using hq) (by simpa using hb)]
    simp only [List.length_cons]
    omega

theorem match_simple_string_loop_bounds (rest : List Char) (n : Nat) :
    n ≤ match_simple_string_loop rest n ∧ match_simple_string_loop rest n ≤ n + rest.length := by
  induction rest generalizing n with
  | nil => simp [match_simple_string_loop]
  | cons c rest ih =>
    simp only [match_simple_string_loop, List.length_cons]
    split
    · omega
    · split
      · have := ih (n + 1)
        omega
      · omega

theorem match_whitespace_loop_bounds (rest : List Char) (n : Nat) :
    n ≤ match_whitespace_loop rest n ∧ match_whitespace_loop rest n ≤ n + rest.length := by
  induction rest generalizing n with
  | nil => simp [match_whitespace_loop]
  | cons c rest ih =>
    simp only [match_whitespace_loop, List.length_cons]
    split
    · have := ih (n + 1)
      omega
    · omega

theorem match_comment_loop_bounds (rest : List Char) (saw : Bool) (n : Nat) :
    n ≤ (match_comment_loop rest saw n).2 ∧
      (match_comment_loop rest saw n).2 ≤ n + rest.length := by
  induction rest generalizing saw n with
  | nil => simp [match_comment_loop]
  | cons c rest ih =>
    simp only [match_comment_loop, List.length_cons]
    split
    · have := ih true (n + 1)
      omega
    · split
      · simp
      · have := ih false (n + 1)
        omega

theorem digit_run_le (s : List Char) : digit_run s ≤ s.length := by
  obtain ⟨ds, r, hs, -, -, hrun, -⟩ := digits_split s
  rw [hrun]
  conv_rhs => rw [hs]
  simp

theorem dropWhile_digit_length (s : List Char) :
    (s.dropWhile is_digit).length + digit_run s = s.length := by
  obtain ⟨ds, r, hs, -, -, hrun, hdrop⟩ := digits_split s
  rw [hrun, hdrop]
  conv_rhs => rw [hs]
  simp
  omega

theorem scan_exponent_bounds (r : List Char) (n : Nat) :
    n ≤ (scan_exponent r n).length ∧ (scan_exponent r n).length ≤ n + r.length := by
  cases r with
  | nil => simp [scan_exponent]
  | cons c r =>
    have := digit_run_le r
    simp only [scan_exponent, List.length_cons]
    split
    · constructor <;> simp <;> omega
    · split
      · split
        · constructor <;> simp
        · constructor <;> simp <;> omega
      · simp

theorem scan_after_fraction_bounds (r : List Char) (n : Nat) :
    n ≤ (scan_after_fraction r n).length ∧ (scan_after_fraction r n).length ≤ n + r.length := by
  cases r with
  | nil => simp [scan_after_fraction]
  | cons c r =>
    simp only [scan_after_fraction, List.length_cons]
    split
    · have := scan_exponent_bounds r (n + 1)
      omega
    · simp

theorem scan_fraction_bounds (r : List Char) (n : Nat) :
    n ≤ (scan_fraction r n).length ∧ (scan_fraction r n).length ≤ n + r.length := by
  simp only [scan_fraction]
  split
  · simp
  · have := scan_after_fraction_bounds (r.dropWhile is_digit) (n + digit_run r)
    have := dropWhile_digit_length r
    omega

theorem scan_after_integer_bounds (r : List Char) (n : Nat) :
    n ≤ (scan_after_integer r n).length ∧ (scan_after_integer r n).length ≤ n + r.length := by
  cases r with
  | nil => simp [scan_after_integer]
  | cons c r =>
    simp only [scan_after_integer, List.length_cons]
    split
    · have := scan_fraction_bounds r (n + 1)
      omega
    · split
      · have := scan_exponent_bounds r (n + 1)
        omega
      · simp

theorem scan_integer_bounds (r : List Char) (n : Nat) :
    n ≤ (scan_integer r n).length ∧ (scan_integer r n).length ≤ n + r.length := by
  simp only [scan_integer]
  split
  · simp
  · have := scan_after_integer_bounds (r.dropWhile is_digit) (n + digit_run r)
    have := dropWhile_digit_length r
    omega

theorem scan_number_le (s : List Char) : (scan_number s).length ≤ s.length := by
  cases s with
  | nil => simp [scan_number]
  | cons c r =>
    simp only [scan_number, List.length_cons]
    split
    · have := scan_integer_bounds r 1
      omega
    · have := scan_integer_bounds (c :: r) 0
      simp only [List.length_cons] at this
      omega

theorem scan_number_pos {c : Char} (r : List Char) (h : c = '-' ∨ is_digit c = true) :
    1 ≤ (scan_number (c :: r)).length := by
  rcases h with rfl | h
  · have := scan_integer_bounds r 1
    simpa [scan_number] using this.1
  · have hne := is_digit_ne_minus h
    simp only [scan_number, beq_iff_eq, hne, if_false, scan_integer_digit r 0 h]
    have := scan_after_integer_bounds (r.dropWhile is_digit) (0 + 1 + digit_run r)
    omega

theorem match_literal_first (c : Char) (r literal : List Char) :
    match_literal (c :: r) (c :: literal) = match_literal_loop r literal 1 := by
  simp [match_literal, match_literal_loop]

/-- The three literal matchers report a length between 1 and the input length
when the first byte is the first byte of the literal. -/
theorem match_literal_first_bounds (c : Char) (r literal : List Char) :
    1 ≤ (match_literal (c :: r) (c :: literal)).2 ∧
      (match_literal (c :: r) (c :: literal)).2 ≤ (c :: r).length := by
  rw [match_literal_first]
  have := match_literal_loop_bounds r literal 1
  simp only [List.length_cons]
  omega

theorem match_whitespace_first {c : Char} (r : List Char) (h : is_space c = true) :
    match_whitespace (c :: r) =
      ⟨match_result.complete, token_kind.whitespace, match_whitespace_loop r 1⟩ := by
  simp [match_whitespace, match_whitespace_loop, h]

theorem match_comment_bounds (r : List Char) :
    ∃ out, match_comment ('/' :: r) = some out ∧ 1 ≤ out.length ∧
      out.length ≤ ('/' :: r).length := by
  cases r with
  | nil =>
    exact ⟨⟨match_result.unmatched, token_kind.comment, 1⟩, by simp [match_comment], by simp⟩
  | cons d r =>
    by_cases hd : d = '*'
    · subst hd
      refine ⟨_, match_comment_open r, ?_⟩
      have := match_comment_loop_bounds r false 2
      simp only [List.length_cons]
      omega
    · exact ⟨⟨match_result.unmatched, token_kind.comment, 1⟩, by simp [match_comment, hd],
        by simp⟩

theorem match_string_bounds (r : List Char) :
    ∃ out, match_string ('"' :: r) = some out ∧ 1 ≤ out.length ∧
      out.length ≤ ('"' :: r).length := by
  refine ⟨⟨(match_string_loop r 1).1, token_kind.string, (match_string_loop r 1).2⟩,
    by simp [match_string], ?_⟩
  have := match_string_loop_bounds r 1
  simp only [List.length_cons]
  omega

/-! ## Running a matcher again on the bytes it matched -/

theorem take_succ_cons (c : Char) (r : List Char) {k : Nat} (h : 1 ≤ k) :
    (c :: r).take k = c :: r.take (k - 1) := by
  obtain ⟨j, rfl⟩ : ∃ j, k = j + 1 := ⟨k - 1, by omega⟩
  simp

theorem match_literal_loop_rerun (input literal : List Char) (n m : Nat)
    (h : match_literal_loop input literal n = (match_result.complete, m)) :
    match_literal_loop (input.take (m - n)) literal n = (match_result.complete, m) := by
  induction input, literal, n using match_literal_loop.induct with
  | case1 t n =>
    simp only [match_literal_loop, Prod.mk.injEq, true_and] at h
    subst h
    simp [match_literal_loop]
  | case2 l literal n => simp [match_literal_loop] at h
  | case3 b input l literal n hb => simp [match_literal_loop, hb] at h
  | case4 b input l literal n hb ih =>
    have hstep : ∀ input2, match_literal_loop (b :: input2) (l :: literal) n =
        match_literal_loop input2 literal (n + 1) := by
      intro input2
      simp only [match_literal_loop, hb]
      simp
    rw [hstep] at h
    have hb2 := match_literal_loop_bounds input literal (n + 1)
    rw [h] at hb2
    have := ih h
    rw [take_succ_cons b input (by simp at hb2; omega), hstep]
    have he : m - n - 1 = m - (n + 1) := by omega
    rw [he]
    exact this

theorem match_string_loop_rerun (rest : List Char) (n m : Nat)
    (h : match_string_loop rest n = (match_result.complete, m)) (t : List Char) :
    match_string_loop (rest.take (m - n) ++ t) n = (match_result.complete, m) := by
  induction rest, n using match_string_loop.induct with
  | case1 n => simp [match_string_loop_nil] at h
  | case2 c rest n hq =>
    obtain rfl : c = '"' := by simpa using hq
    rw [match_string_loop_quote] at h
    obtain rfl : n + 1 = m := by simpa using h
    simp [match_string_loop_quote]
  | case3 c n _ hb =>
    obtain rfl : c = '\\' := by simpa using hb
    simp [match_string_loop_escape_end] at h
  | case4 c n _ hb d rest ih =>
    obtain rfl : c = '\\' := by simpa using hb
    rw [match_string_loop_escape] at h
    have hb2 := match_string_loop_bounds rest (n + 2)
    rw [h] at hb2
    have := ih h
    have h1 : 1 ≤ m - n := by simp at hb2; omega
    have h2 : 1 ≤ m - n - 1 := by simp at hb2; omega
    rw [take_succ_cons _ _ h1, take_succ_cons _ _ h2]
    simp only [List.cons_append]
    rw [match_string_loop_escape]
    have he : m - n - 1 - 1 = m - (n + 2) := by omega
    rw [he]
    exact this
  | case5 c rest n hq hb ih =>
    have hq2 : c ≠ '"' := by simpa using hq
    have hb3 : c ≠ '\\' := by simpa using hb
    rw [match_string_loop_plain rest n hq2 hb3] at h
    have hb2 := match_string_loop_bounds rest (n + 1)
    rw [h] at hb2
    have := ih h
    have h1 : 1 ≤ m - n := by simp at hb2; omega
    rw [take_succ_cons _ _ h1]
    simp only [List.cons_append]
    rw [match_string_loop_plain _ n hq2 hb3]
    have he : m - n - 1 = m - (n + 1) := by omega
    rw [he]
    exact this

theorem match_simple_string_loop_rerun (rest : List Char) (n : Nat) :
    match_simple_string_loop (rest.take (match_simple_string_loop rest n - n)) n =
      match_simple_string_loop rest n := by
  induction rest generalizing n with
  | nil => simp [match_simple_string_loop]
  | cons c rest ih =>
    by_cases h0 : c = '\x00'
    · simp [match_simple_string_loop, h0]
    · by_cases hc : is_simple_char c = true
      · have hstep : ∀ rest2, match_simple_string_loop (c :: rest2) n =
            match_simple_string_loop rest2 (n + 1) := by
          intro rest2
          simp [match_simple_string_loop, h0, hc]
        have hb := match_simple_string_loop_bounds rest (n + 1)
        rw [hstep, take_succ_cons c rest (by omega), hstep]
        have he : match_simple_string_loop rest (n + 1) - n - 1 =
            match_simple_string_loop rest (n + 1) - (n + 1) := by omega
        rw [he]
        exact ih (n + 1)
      · simp [match_simple_string_loop, h0, hc]

theorem match_whitespace_loop_rerun (rest : List Char) (n : Nat) :
    match_whitespace_loop (rest.take (match_whitespace_loop rest n - n)) n =
      match_whitespace_loop rest n := by
  induction rest generalizing n with
  | nil => simp [match_whitespace_loop]
  | cons c rest ih =>
    by_cases hc : is_space c = true
    · have hstep : ∀ rest2, match_whitespace_loop (c :: rest2) n =
          match_whitespace_loop rest2 (n + 1) := by
        intro rest2
        simp [match_whitespace_loop, hc]
      have hb := match_whitespace_loop_bounds rest (n + 1)
      rw [hstep, take_succ_cons c rest (by omega), hstep]
      have he : match_whitespace_loop rest (n + 1) - n - 1 =
          match_whitespace_loop rest (n + 1) - (n + 1) := by omega
      rw [he]
      exact ih (n + 1)
    · simp [match_whitespace_loop, hc]

theorem match_comment_loop_rerun (rest : List Char) (saw : Bool) (n m : Nat)
    (h : match_comment_loop rest saw n = (match_result.complete, m)) :
    match_comment_loop (rest.take (m - n)) saw n = (match_result.complete, m) := by
  induction rest generalizing saw n with
  | nil => simp [match_comment_loop] at h
  | cons c rest ih =>
    by_cases hc : c = '*'
    · subst hc
      have hstep : ∀ rest2, match_comment_loop ('*' :: rest2) saw n =
          match_comment_loop rest2 true (n + 1) := by
        intro rest2
        simp [match_comment_loop]
      rw [hstep] at h
      have hb := match_comment_loop_bounds rest true (n + 1)
      rw [h] at hb
      rw [take_succ_cons _ _ (by simp at hb; omega), hstep]
      have he : m - n - 1 = m - (n + 1) := by omega
      rw [he]
      exact ih true (n + 1) h
    · by_cases hs : saw = true ∧ c = '/'
      · obtain ⟨rfl, rfl⟩ := hs
        have hm : n + 1 = m := by simpa [match_comment_loop] using h
        subst hm
        simp [match_comment_loop]
      · have hstep : ∀ rest2, match_comment_loop (c :: rest2) saw n =
            match_comment_loop rest2 false (n + 1) := by
          intro rest2
          have : ¬ (saw = true ∧ c = '/') := hs
          simp only [match_comment_loop, beq_iff_eq, hc, if_false, Bool.and_eq_true,
            decide_eq_true_eq]
          rw [if_neg (by simpa using this)]
        rw [hstep] at h
        have hb := match_comment_loop_bounds rest false (n + 1)
        rw [h] at hb
        rw [take_succ_cons _ _ (by simp at hb; omega), hstep]
        have he : m - n - 1 = m - (n + 1) := by omega
        rw [he]
        exact ih false (n + 1) h

/-! ## Dispatch of `attempt_match` -/

theorem is_digit_cases_all {c : Char} (h : is_digit c = true) :
    c = '0' ∨ c = '1' ∨ c = '2' ∨ c = '3' ∨ c = '4' ∨ c = '5' ∨ c = '6' ∨ c = '7' ∨
      c = '8' ∨ c = '9' := by
  simpa [is_digit, is_digit_1_9, or_assoc] using h

/-- On a first byte `'-'` or a digit the dispatcher is `match_number`. -/
theorem attempt_match_number {c : Char} (r : List Char) (h : c = '-' ∨ is_digit c = true) :
    attempt_match (c :: r) = match_number (c :: r) := by
  rcases h with rfl | h
  · simp [attempt_match]
  · rcases is_digit_cases_all h with rfl | rfl | rfl | rfl | rfl | rfl | rfl | rfl | rfl | rfl <;>
      simp [attempt_match, is_digit, is_digit_1_9]

/-- A word of the number grammar begins with `'-'` or a digit. -/
theorem number_word_head {w t : List Char} (hw : number_word w) :
    ∃ c r, w ++ t = c :: r ∧ (c = '-' ∨ is_digit c = true) := by
  obtain ⟨sign, int, frac, exp, rfl, hs, ⟨hne, hall⟩, -, -⟩ := hw
  rcases hs with rfl | rfl
  · cases int with
    | nil => exact absurd rfl hne
    | cons d ds =>
      exact ⟨d, ds ++ (frac ++ (exp ++ t)), by simp, Or.inr (hall d (List.mem_cons_self _ _))⟩
  · exact ⟨'-', int ++ (frac ++ (exp ++ t)), by simp, Or.inl rfl⟩

/-- On a first byte `'/'` the dispatcher is `match_comment`. -/
theorem attempt_match_comment (r : List Char) :
    attempt_match ('/' :: r) = match_comment ('/' :: r) := by
  simp [attempt_match, is_digit, is_digit_1_9, is_space]

/-- On a first byte `'"'` the dispatcher is `match_string`. -/
theorem attempt_match_string (r : List Char) :
    attempt_match ('"' :: r) = match_string ('"' :: r) := by
  simp [attempt_match, is_digit, is_digit_1_9]

theorem is_space_cases {c : Char} (h : is_space c = true) :
    c = ' ' ∨ c = '\t' ∨ c = '\r' ∨ c = '\n' := by
  simpa [is_space, or_assoc] using h

/-- On a first byte that is a space, tab, CR or LF the dispatcher is
`match_whitespace`. -/
theorem attempt_match_whitespace {c : Char} (r : List Char) (h : is_space c = true) :
    attempt_match (c :: r) = some (match_whitespace (c :: r)) := by
  rcases is_space_cases h with rfl | rfl | rfl | rfl <;>
    simp [attempt_match, is_digit, is_digit_1_9, is_space]

/-- What the dispatcher does depends on the first byte alone: a punctuation
byte, the first byte of a literal, of a number, of a string, of whitespace, of a
comment, or any other byte. -/
theorem attempt_match_dispatch (c : Char) :
    (∃ k, k ≠ token_kind.string ∧ k ≠ token_kind.number ∧
      ∀ r, attempt_match (c :: r) = some ⟨match_result.complete, k, 1⟩) ∨
    (c = 't' ∧ ∀ r, attempt_match (c :: r) = some (match_true (c :: r))) ∨
    (c = 'f' ∧ ∀ r, attempt_match (c :: r) = some (match_false (c :: r))) ∨
    (c = 'n' ∧ ∀ r, attempt_match (c :: r) = some (match_null (c :: r))) ∨
    ((c = '-' ∨ is_digit c = true) ∧ ∀ r, attempt_match (c :: r) = match_number (c :: r)) ∨
    (c = '"' ∧ ∀ r, attempt_match (c :: r) = match_string (c :: r)) ∨
    (is_space c = true ∧ ∀ r, attempt_match (c :: r) = some (match_whitespace (c :: r))) ∨
    (c = '/' ∧ ∀ r, attempt_match (c :: r) = match_comment (c :: r)) ∨
    (∀ r, attempt_match (c :: r) = some ⟨match_result.unmatched, token_kind.unknown, 1⟩) := by
  by_cases h1 : c = '['
  · exact Or.inl ⟨token_kind.array_begin, by decide, by decide,
      fun r => by simp [attempt_match, h1]⟩
  by_cases h2 : c = ']'
  · exact Or.inl ⟨token_kind.array_end, by decide, by decide,
      fun r => by simp [attempt_match, h2]⟩
  by_cases h3 : c = '{'
  · exact Or.inl ⟨token_kind.object_begin, by decide, by decide,
      fun r => by simp [attempt_match, h3]⟩
  by_cases h4 : c = '}'
  · exact Or.inl ⟨token_kind.object_end, by decide, by decide,
      fun r => by simp [attempt_match, h4]⟩
  by_cases h5 : c = ':'
  · exact Or.inl ⟨token_kind.object_key_delimiter, by decide, by decide,
      fun r => by simp [attempt_match, h5]⟩
  by_cases h6 : c = ','
  · exact Or.inl ⟨token_kind.separator, by decide, by decide,
      fun r => by simp [attempt_match, h6]⟩
  by_cases h7 : c = 't'
  · exact Or.inr (Or.inl ⟨h7, fun r => by simp [attempt_match, h7]⟩)
  by_cases h8 : c = 'f'
  · exact Or.inr (Or.inr (Or.inl ⟨h8, fun r => by simp [attempt_match, h8]⟩))
  by_cases h9 : c = 'n'
  · exact Or.inr (Or.inr (Or.inr (Or.inl ⟨h9, fun r => by simp [attempt_match, h9]⟩)))
  by_cases h10 : c = '-' ∨ is_digit c = true
  · exact Or.inr (Or.inr (Or.inr (Or.inr (Or.inl ⟨h10, fun r => attempt_match_number r h10⟩))))
  by_cases h11 : c = '"'
  · subst h11
    exact Or.inr (Or.inr (Or.inr (Or.inr (Or.inr (Or.inl ⟨rfl, attempt_match_string⟩)))))
  by_cases h12 : is_space c = true
  · exact Or.inr (Or.inr (Or.inr (Or.inr (Or.inr (Or.inr
      (Or.inl ⟨h12, fun r => attempt_match_whitespace r h12⟩))))))
  by_cases h13 : c = '/'
  · subst h13
    exact Or.inr (Or.inr (Or.inr (Or.inr (Or.inr (Or.inr (Or.inr
      (Or.inl ⟨rfl, attempt_match_comment⟩)))))))
  · refine Or.inr (Or.inr (Or.inr (Or.inr (Or.inr (Or.inr (Or.inr (Or.inr ?_)))))))
    intro r
    have h10a : c ≠ '-' := fun h => h10 (Or.inl h)
    have h10b : is_digit c = false := by
      cases hd : is_digit c with
      | false => rfl
      | true => exact absurd (Or.inr hd) h10
    have h12b : is_space c = false := by simpa using h12
    simp [attempt_match, h1, h2, h3, h4, h5, h6, h7, h8, h9, h10a, h10b, h11, h12b, h13]

/-- The dispatcher returns on every non-empty input, with a length between 1
and the input length. -/
theorem attempt_match_cons_bounds (c : Char) (r : List Char) :
    ∃ out, attempt_match (c :: r) = some out ∧ 1 ≤ out.length ∧
      out.length ≤ (c :: r).length := by
  rcases attempt_match_dispatch c with ⟨k, -, -, h⟩ | ⟨rfl, h⟩ | ⟨rfl, h⟩ | ⟨rfl, h⟩ | ⟨hc, h⟩ |
    ⟨rfl, h⟩ | ⟨hc, h⟩ | ⟨rfl, h⟩ | h
  · exact ⟨_, h r, by simp⟩
  · exact ⟨_, h r, match_literal_first_bounds 't' r ['r', 'u', 'e']⟩
  · exact ⟨_, h r, match_literal_first_bounds 'f' r ['a', 'l', 's', 'e']⟩
  · exact ⟨_, h r, match_literal_first_bounds 'n' r ['u', 'l', 'l']⟩
  · exact ⟨_, (h r).trans (match_number_eq _), scan_number_pos r hc, scan_number_le _⟩
  · rw [h r]
    exact match_string_bounds r
  · refine ⟨_, h r, ?_⟩
    rw [match_whitespace_first r hc]
    have := match_whitespace_loop_bounds r 1
    simp only [List.length_cons]
    omega
  · rw [h r]
    exact match_comment_bounds r
  · exact ⟨_, h r, by simp⟩

/-! ## Idempotence of the matchers -/

theorem match_literal_rerun (s literal : List Char) (k : token_kind) :
    rerun_agrees
      (fun x => some ⟨(match_literal x literal).1, k, (match_literal x literal).2⟩) s := by
  intro out h hc
  simp only [Option.some.injEq] at h
  subst h
  simp only at hc ⊢
  have h1 : match_literal_loop s literal 0 =
      (match_result.complete, (match_literal s literal).2) := by
    rw [← hc]
    rfl
  have := match_literal_loop_rerun s literal 0 _ h1
  simp only [Nat.sub_zero, match_literal] at this hc ⊢
  rw [this, hc]

/-- The number matcher on the bytes it matched, followed by any bytes that are
empty or begin with a byte other than a digit, `'.'`, `'e'`, `'E'`. -/
theorem match_number_rerun_follow {s : List Char} {out : match_output}
    (h : match_number s = some out) (hc : out.result = match_result.complete)
    (t : List Char) (ht : number_follow t) :
    match_number (s.take out.length ++ t) = some out := by
  rw [match_number_eq] at h
  obtain rfl : scan_number s = out := Option.some.inj h
  obtain ⟨w, r, hs, hw, -, hl⟩ := scan_number_sound hc
  have hk := scan_number_kind s
  have htake : s.take (scan_number s).length = w := by
    rw [hl]
    conv_lhs => rw [hs]
    simp
  rw [htake, match_number_eq, scan_number_word hw ht]
  congr 1
  cases hout : scan_number s with
  | mk res kind len =>
    rw [hout] at hc hk hl
    simp only at hc hk hl
    rw [hc, hk, hl]

theorem match_number_rerun (s : List Char) : rerun_agrees match_number s := by
  intro out h hc
  have := match_number_rerun_follow h hc [] (by decide)
  simpa using this

/-- The string matcher on the bytes it matched, followed by any bytes. -/
theorem match_string_rerun_follow {s : List Char} {out : match_output}
    (h : match_string s = some out) (hc : out.result = match_result.complete)
    (t : List Char) :
    match_string (s.take out.length ++ t) = some out := by
  cases s with
  | nil => simp [match_string] at h
  | cons c r =>
    by_cases hq : c = '"'
    · subst hq
      simp only [match_string, beq_self_eq_true, if_true, Option.some.injEq] at h
      subst h
      simp only at hc ⊢
      have h1 : match_string_loop r 1 = (match_result.complete, (match_string_loop r 1).2) := by
        rw [← hc]
      have hb := match_string_loop_bounds r 1
      have := match_string_loop_rerun r 1 _ h1 t
      rw [take_succ_cons _ _ hb.1]
      simp only [List.cons_append, match_string, beq_self_eq_true, if_true]
      rw [this, hc]
    · simp [match_string, hq] at h

theorem match_string_rerun (s : List Char) : rerun_agrees match_string s := by
  intro out h hc
  have := match_string_rerun_follow h hc []
  simpa using this

theorem match_simple_string_rerun (s : List Char) :
    rerun_agrees (fun x => some (match_simple_string x)) s := by
  intro out h hc
  simp only [Option.some.injEq] at h
  subst h
  cases s with
  | nil => simp [match_simple_string] at hc
  | cons c r =>
    by_cases hs : is_simple_start c = true
    · have hb := match_simple_string_loop_bounds r 1
      simp only [match_simple_string, hs, if_true]
      rw [take_succ_cons _ _ hb.1]
      simp only [match_simple_string, hs, if_true, match_simple_string_loop_rerun]
    · simp [match_simple_string, hs] at hc

theorem match_whitespace_rerun (s : List Char) :
    rerun_agrees (fun x => some (match_whitespace x)) s := by
  intro out h _
  simp only [Option.some.injEq] at h
  subst h
  have := match_whitespace_loop_rerun s 0
  simp only [Nat.sub_zero] at this
  simp only [match_whitespace, this]

theorem match_comment_rerun (s : List Char) : rerun_agrees match_comment s := by
  intro out h hc
  cases s with
  | nil => simp [match_comment] at h
  | cons c r =>
    by_cases hq : c = '/'
    · subst hq
      cases r with
      | nil =>
        simp only [match_comment, beq_self_eq_true, if_true, Option.some.injEq] at h
        subst h
        simp at hc
      | cons d r =>
        by_cases hd : d = '*'
        · subst hd
          rw [match_comment_open, Option.some.injEq] at h
          subst h
          simp only at hc ⊢
          have h1 : match_comment_loop r false 2 =
              (match_result.complete, (match_comment_loop r false 2).2) := by
            rw [← hc]
          have hb := match_comment_loop_bounds r false 2
          have := match_comment_loop_rerun r false 2 _ h1
          rw [take_succ_cons _ _ (by omega), take_succ_cons _ _ (by omega), match_comment_open]
          have he : (match_comment_loop r false 2).2 - 1 - 1 =
              (match_comment_loop r false 2).2 - 2 := by omega
          rw [he, this, hc]
        · simp only [match_comment, beq_self_eq_true, if_true, beq_iff_eq, hd, if_false,
            Option.some.injEq] at h
          subst h
          simp at hc
    · simp [match_comment, hq] at h

/-- Idempotence passes from a matcher to the dispatcher on the first bytes
that select this matcher. -/
theorem rerun_agrees_dispatch {f : List Char → Option match_output} {c : Char}
    (hf : ∀ r, attempt_match (c :: r) = f (c :: r)) (r : List Char)
    (hr : rerun_agrees f (c :: r)) : rerun_agrees attempt_match (c :: r) := by
  intro out h hc
  obtain ⟨out2, h2, hpos, -⟩ := attempt_match_cons_bounds c r
  have heq : out2 = out := Option.some.inj (h2.symm.trans h)
  rw [heq] at hpos
  rw [hf] at h
  have := hr out h hc
  rw [take_succ_cons _ _ hpos] at this ⊢
  rw [hf]
  exact this

theorem attempt_match_rerun (s : List Char) : rerun_agrees attempt_match s := by
  cases s with
  | nil =>
    intro out h hc
    simp only [attempt_match, Option.some.injEq] at h
    subst h
    simp at hc
  | cons c r =>
    rcases attempt_match_dispatch c with ⟨k, -, -, h⟩ | ⟨rfl, h⟩ | ⟨rfl, h⟩ | ⟨rfl, h⟩ | ⟨-, h⟩ |
      ⟨rfl, h⟩ | ⟨-, h⟩ | ⟨rfl, h⟩ | h
    · intro out ho _
      obtain rfl : (⟨match_result.complete, k, 1⟩ : match_output) = out :=
        Option.some.inj ((h r).symm.trans ho)
      simpa using h []
    · exact rerun_agrees_dispatch h r (match_literal_rerun _ _ _)
    · exact rerun_agrees_dispatch h r (match_literal_rerun _ _ _)
    · exact rerun_agrees_dispatch h r (match_literal_rerun _ _ _)
    · exact rerun_agrees_dispatch h r (match_number_rerun _)
    · exact rerun_agrees_dispatch h r (match_string_rerun _)
    · exact rerun_agrees_dispatch h r (match_whitespace_rerun _)
    · exact rerun_agrees_dispatch h r (match_comment_rerun _)
    · intro out ho hc
      obtain rfl : (⟨match_result.unmatched, token_kind.unknown, 1⟩ : match_output) = out :=
        Option.some.inj ((h r).symm.trans ho)
      simp at hc

theorem match_comment_kind {s : List Char} {out : match_output}
    (h : match_comment s = some out) : out.kind = token_kind.comment := by
  cases s with
  | nil => simp [match_comment] at h
  | cons c r =>
    by_cases hc : c = '/'
    · subst hc
      cases r with
      | nil =>
        simp only [match_comment, beq_self_eq_true, if_true, Option.some.injEq] at h
        subst h
        rfl
      | cons d r =>
        by_cases hd : d = '*'
        · subst hd
          rw [match_comment_open, Option.some.injEq] at h
          subst h
          rfl
        · simp only [match_comment, beq_self_eq_true, if_true, beq_iff_eq, hd, if_false,
            Option.some.injEq] at h
          subst h
          rfl
    · simp [match_comment, hc] at h

/-- A `complete` token of kind `string` or `number` found by the dispatcher is
found again, with the same length, on its own bytes followed by any bytes that
are empty or begin with a byte other than a digit, `'.'`, `'e'`, `'E'`. -/
theorem attempt_match_rerun_follow {s : List Char} {out : match_output}
    (h : attempt_match s = some out) (hc : out.result = match_result.complete)
    (hk : out.kind = token_kind.string ∨ out.kind = token_kind.number)
    (t : List Char) (ht : number_follow t) :
    attempt_match (s.take out.length ++ t) = some out := by
  cases s with
  | nil =>
    simp only [attempt_match, Option.some.injEq] at h
    subst h
    simp at hc
  | cons c r =>
    obtain ⟨out2, h2, hpos, -⟩ := attempt_match_cons_bounds c r
    have heq : out2 = out := Option.some.inj (h2.symm.trans h)
    rw [heq] at hpos
    have hkind : ∀ o : match_output, some o = some out → o.kind ≠ token_kind.string →
        o.kind ≠ token_kind.number → False := by
      intro o ho h1 h2
      obtain rfl : o = out := Option.some.inj ho
      rcases hk with hk | hk
      · exact h1 hk
      · exact h2 hk
    rcases attempt_match_dispatch c with ⟨k, hk1, hk2, hd⟩ | ⟨rfl, hd⟩ | ⟨rfl, hd⟩ | ⟨rfl, hd⟩ |
      ⟨-, hd⟩ | ⟨rfl, hd⟩ | ⟨-, hd⟩ | ⟨rfl, hd⟩ | hd
    · exact (hkind _ ((hd r).symm.trans h) hk1 hk2).elim
    · exact (hkind _ ((hd r).symm.trans h) (by simp [match_true]) (by simp [match_true])).elim
    · exact (hkind _ ((hd r).symm.trans h) (by simp [match_false]) (by simp [match_false])).elim
    · exact (hkind _ ((hd r).symm.trans h) (by simp [match_null]) (by simp [match_null])).elim
    · rw [hd] at h
      have := match_number_rerun_follow h hc t ht
      rw [take_succ_cons _ _ hpos] at this ⊢
      rw [List.cons_append, hd]
      exact this
    · rw [hd] at h
      have := match_string_rerun_follow h hc t
      rw [take_succ_cons _ _ hpos] at this ⊢
      rw [List.cons_append, hd]
      exact this
    · exact (hkind _ ((hd r).symm.trans h) (by simp [match_whitespace])
        (by simp [match_whitespace])).elim
    · rw [hd] at h
      have := match_comment_kind h
      rcases hk with hk | hk <;> rw [this] at hk <;> exact absurd hk (by decide)
    · have : (⟨match_result.unmatched, token_kind.unknown, 1⟩ : match_output) = out :=
        Option.some.inj ((hd r).symm.trans h)
      rw [← this] at hc
      exact absurd hc (by decide)

/-! ## `path_match` on a bracket segment -/

theorem attempt_match_le {s : List Char} {out : match_output} (h : attempt_match s = some out) :
    out.length ≤ s.length := by
  cases s with
  | nil =>
    simp only [attempt_match, Option.some.injEq] at h
    subst h
    simp
  | cons c r =>
    obtain ⟨out2, h2, -, hle⟩ := attempt_match_cons_bounds c r
    have heq : out2 = out := Option.some.inj (h2.symm.trans h)
    rw [heq] at hle
    exact hle

/-- The bracket branch of `path_match` in closed form. -/
theorem path_match_bracket (r mc : List Char) (hr : 1 ≤ r.length) {out : match_output}
    (h : attempt_match r = some out) :
    path_match ('[' :: r) mc =
      if brace_accepts ('[' :: r) out then
        some (path_match_result.brace, ('[' :: r).take (out.length + 2))
      else some (path_match_result.invalid, mc) := by
  have hle := attempt_match_le h
  have hlen : ¬ (r.length + 1 < 2) := by omega
  have hdot : ('[' == '.') = false := by decide
  simp only [path_match, List.length_cons, hlen, if_false, List.getElem?_cons_zero, hdot,
    beq_self_eq_true, if_true, List.drop_succ_cons, List.drop_zero, h, Bool.false_eq_true]
  by_cases hc : out.result = match_result.complete
  · simp only [hc, if_true]
    by_cases hend : r.length + 1 = out.length + 1
    · have hnone : ('[' :: r)[1 + out.length]? = none :=
        List.getElem?_eq_none (by simp only [List.length_cons]; omega)
      have hacc : ¬ brace_accepts ('[' :: r) out := by
        intro hacc
        have := hacc.2.2
        rw [hnone] at this
        exact absurd this (by simp)
      simp only [hend, if_true, hacc, if_false]
    · have hlt : 1 + out.length < ('[' :: r).length := by
        simp only [List.length_cons]
        omega
      rw [if_neg hend, List.getElem?_eq_getElem hlt]
      simp only
      by_cases hd : ('[' :: r)[1 + out.length] = ']'
      · by_cases hk : out.kind = token_kind.string ∨ out.kind = token_kind.number
        · have hacc : brace_accepts ('[' :: r) out :=
            ⟨hc, hk, by rw [List.getElem?_eq_getElem hlt, hd]⟩
          have hk2 : ¬ (out.kind ≠ token_kind.string ∧ out.kind ≠ token_kind.number) := by
            rintro ⟨h1, h2⟩
            rcases hk with hk | hk
            · exact h1 hk
            · exact h2 hk
          simp only [hd, bne_self_eq_false, Bool.false_eq_true, if_false, hk2, hacc, if_true]
        · have hacc : ¬ brace_accepts ('[' :: r) out := fun hacc => hk hacc.2.1
          have hk2 : out.kind ≠ token_kind.string ∧ out.kind ≠ token_kind.number :=
            ⟨fun h1 => hk (Or.inl h1), fun h2 => hk (Or.inr h2)⟩
          simp only [hd, bne_self_eq_false, Bool.false_eq_true, if_false, hacc]
          rw [if_pos hk2]
      · have hacc : ¬ brace_accepts ('[' :: r) out := by
          intro hacc
          have := hacc.2.2
          rw [List.getElem?_eq_getElem hlt] at this
          exact hd (Option.some.inj this)
        have hne : (('[' :: r)[1 + out.length] != ']') = true := by simpa using hd
        simp only [hne, if_true, hacc, if_false]
  · have hacc : ¬ brace_accepts ('[' :: r) out := fun hacc => hc hacc.1
    simp only [hc, if_false, hacc]

theorem attempt_match_total (s : List Char) : ∃ out, attempt_match s = some out := by
  cases s with
  | nil => exact ⟨_, rfl⟩
  | cons c r =>
    obtain ⟨out, h, -⟩ := attempt_match_cons_bounds c r
    exact ⟨out, h⟩

/-! ## `path_match` on a dot segment -/

theorem is_simple_char_of_start {c : Char} (h : is_simple_start c = true) :
    is_simple_char c = true := by
  simp only [is_simple_start, Bool.or_eq_true] at h
  simp only [is_simple_char, Bool.or_eq_true]
  exact Or.inl h

/-- The identifier loop counts the maximal run of identifier bytes. -/
theorem match_simple_string_loop_eq (rest : List Char) (n : Nat) :
    match_simple_string_loop rest n = n + (rest.takeWhile is_simple_char).length := by
  induction rest generalizing n with
  | nil => simp [match_simple_string_loop]
  | cons c rest ih =>
    by_cases h0 : c = '\x00'
    · subst h0
      have : is_simple_char '\x00' = false := by decide
      simp [match_simple_string_loop, this]
    · by_cases hc : is_simple_char c = true
      · simp [match_simple_string_loop, h0, hc, ih, List.takeWhile_cons_of_pos]
        omega
      · simp [match_simple_string_loop, h0, hc]

/-- The dot branch of `path_match` in closed form. -/
theorem path_match_dot (r mc : List Char) (hr : 1 ≤ r.length) :
    path_match ('.' :: r) mc =
      if (match_simple_string r).result = match_result.complete then
        some (path_match_result.simple_object,
          ('.' :: r).take ((match_simple_string r).length + 1))
      else some (path_match_result.invalid, mc) := by
  have hlen : ¬ (r.length + 1 < 2) := by omega
  simp only [path_match, List.length_cons, hlen, if_false, List.getElem?_cons_zero,
    beq_self_eq_true, if_true, List.drop_succ_cons, List.drop_zero]

/-- The identifier matcher on a first byte that starts an identifier. -/
theorem match_simple_string_start {c : Char} (r : List Char) (h : is_simple_start c = true) :
    match_simple_string (c :: r) =
      ⟨match_result.complete, token_kind.string,
        ((c :: r).takeWhile is_simple_char).length⟩ := by
  simp only [match_simple_string, h, if_true, match_simple_string_loop_eq,
    List.takeWhile_cons_of_pos (is_simple_char_of_start h), List.length_cons]
  congr 1
  omega

theorem take_length_takeWhile (p : Char → Bool) (s : List Char) :
    s.take (s.takeWhile p).length = s.takeWhile p := by
  induction s with
  | nil => rfl
  | cons c s ih =>
    by_cases h : p c = true
    · simp [List.takeWhile_cons_of_pos, h, ih]
    · simp [h]

/-! ## The segment matched by `path_match` -/

theorem takeWhile_simple_append (r t : List Char) (ht : no_simple_head t) :
    (r.takeWhile is_simple_char ++ t).takeWhile is_simple_char =
      r.takeWhile is_simple_char := by
  rw [List.takeWhile_append_of_pos (fun a ha => List.mem_takeWhile_imp ha)]
  cases t with
  | nil => simp
  | cons c t =>
    have : is_simple_char c = false := ht c (by simp)
    simp [this]

theorem path_match_dot_outcome (r mc : List Char) (hr : 1 ≤ r.length)
    {res : path_match_result} {m : List Char}
    (h : path_match ('.' :: r) mc = some (res, m)) (hres : res ≠ path_match_result.invalid) :
    res = path_match_result.simple_object ∧ m = '.' :: r.takeWhile is_simple_char ∧
      ∃ d r2, r = d :: r2 ∧ is_simple_start d = true := by
  rw [path_match_dot r mc hr] at h
  cases r with
  | nil => simp at hr
  | cons d r2 =>
    by_cases hs : is_simple_start d = true
    · rw [match_simple_string_start r2 hs, if_pos rfl] at h
      simp only [Option.some.injEq, Prod.mk.injEq] at h
      obtain ⟨rfl, rfl⟩ := h
      refine ⟨rfl, ?_, d, r2, rfl, hs⟩
      rw [List.take_succ_cons, take_length_takeWhile]
    · have hs0 : is_simple_start d = false := by simpa using hs
      have hms : (match_simple_string (d :: r2)).result ≠ match_result.complete := by
        simp [match_simple_string, hs0]
      rw [if_neg hms] at h
      simp only [Option.some.injEq, Prod.mk.injEq] at h
      exact absurd h.1.symm hres

theorem path_match_dot_follow {d : Char} (r2 : List Char) (hs : is_simple_start d = true)
    (t mc2 : List Char) (ht : no_simple_head t) :
    path_match ('.' :: ((d :: r2).takeWhile is_simple_char ++ t)) mc2 =
      some (path_match_result.simple_object, '.' :: (d :: r2).takeWhile is_simple_char) := by
  have hsc := is_simple_char_of_start hs
  have hcons : (d :: r2).takeWhile is_simple_char ++ t =
      d :: (r2.takeWhile is_simple_char ++ t) := by
    rw [List.takeWhile_cons_of_pos hsc, List.cons_append]
  have htw := takeWhile_simple_append (d :: r2) t ht
  rw [path_match_dot _ _ (by rw [hcons]; simp)]
  have hms := match_simple_string_start (r2.takeWhile is_simple_char ++ t) hs
  rw [← hcons, htw] at hms
  rw [hms, if_pos rfl]
  simp only
  rw [List.take_succ_cons, List.take_left']
  rfl

theorem getElem?_bracket {r : List Char} {n : Nat} (h : ('[' :: r)[1 + n]? = some ']') :
    n < r.length ∧ r.take (n + 1) = r.take n ++ [']'] := by
  have h1 : r[n]? = some ']' := by
    rw [Nat.add_comm] at h
    simpa using h
  have hlt : n < r.length := by
    by_contra hge
    rw [List.getElem?_eq_none (by omega)] at h1
    exact absurd h1 (by simp)
  refine ⟨hlt, ?_⟩
  rw [List.take_succ, h1]
  rfl

theorem path_match_bracket_outcome (r mc : List Char) (hr : 1 ≤ r.length)
    {res : path_match_result} {m : List Char}
    (h : path_match ('[' :: r) mc = some (res, m)) (hres : res ≠ path_match_result.invalid) :
    res = path_match_result.brace ∧ ∃ out, attempt_match r = some out ∧
      brace_accepts ('[' :: r) out ∧ m = '[' :: (r.take out.length ++ [']']) := by
  obtain ⟨out, ho⟩ := attempt_match_total r
  rw [path_match_bracket r mc hr ho] at h
  by_cases hacc : brace_accepts ('[' :: r) out
  · rw [if_pos hacc] at h
    simp only [Option.some.injEq, Prod.mk.injEq] at h
    obtain ⟨rfl, rfl⟩ := h
    refine ⟨rfl, out, ho, hacc, ?_⟩
    rw [List.take_succ_cons, (getElem?_bracket hacc.2.2).2]
  · rw [if_neg hacc] at h
    simp only [Option.some.injEq, Prod.mk.injEq] at h
    exact absurd h.1.symm hres

theorem path_match_bracket_follow {r : List Char} {out : match_output}
    (h : attempt_match r = some out) (hacc : brace_accepts ('[' :: r) out)
    (t mc2 : List Char) :
    path_match ('[' :: ((r.take out.length ++ [']']) ++ t)) mc2 =
      some (path_match_result.brace, '[' :: (r.take out.length ++ [']'])) := by
  obtain ⟨hc, hk, hget⟩ := hacc
  obtain ⟨hlt, -⟩ := getElem?_bracket hget
  have hfollow : number_follow (']' :: t) := by
    intro c hcm
    obtain rfl : ']' = c := by simpa using hcm
    decide
  have hre := attempt_match_rerun_follow h hc hk (']' :: t) hfollow
  have happ : (r.take out.length ++ [']']) ++ t = r.take out.length ++ ']' :: t := by simp
  have hlen : (r.take out.length).length = out.length := by
    rw [List.length_take]
    omega
  have hr2 : 1 ≤ (r.take out.length ++ ']' :: t).length := by
    simp only [List.length_append, List.length_cons]
    omega
  rw [happ, path_match_bracket _ _ hr2 hre]
  have hacc2 : brace_accepts ('[' :: (r.take out.length ++ ']' :: t)) out := by
    refine ⟨hc, hk, ?_⟩
    rw [Nat.add_comm, List.getElem?_cons_succ, List.getElem?_append_right (by omega), hlen]
    simp
  rw [if_pos hacc2, List.take_succ_cons]
  congr 3
  have : out.length + 1 = (r.take out.length ++ [']']).length := by simp [hlen]
  rw [← happ, this, List.take_left']
  rfl

theorem path_match_short (input mc : List Char) (h : input.length < 2) :
    path_match input mc = some (path_match_result.invalid, mc) := by
  simp [path_match, h]

theorem path_match_other {c : Char} (r mc : List Char) (h1 : c ≠ '.') (h2 : c ≠ '[') :
    path_match (c :: r) mc = some (path_match_result.invalid, mc) := by
  by_cases hlen : (c :: r).length < 2
  · exact path_match_short _ _ hlen
  · simp [path_match, hlen, h1, h2]

/-! ## Theorems about `match_number` -/

/-- C1: on a word `w` of the relaxed number grammar followed by bytes `t` that
are empty or begin with a byte other than a digit, `'.'`, `'e'`, `'E'`,
`match_number` and `attempt_match` return `complete` with kind `number` and
length exactly `|w|`. -/
theorem match_number_complete_on_word (w t : List Char) (hw : number_word w)
    (ht : number_follow t) :
    match_number (w ++ t) = some ⟨match_result.complete, token_kind.number, w.length⟩ ∧
    attempt_match (w ++ t) = some ⟨match_result.complete, token_kind.number, w.length⟩ := by
  have h1 : match_number (w ++ t) =
      some ⟨match_result.complete, token_kind.number, w.length⟩ := by
    rw [match_number_eq, scan_number_word hw ht]
  obtain ⟨c, r, hcr, hc⟩ := number_word_head (t := t) hw
  refine ⟨h1, ?_⟩
  rw [hcr, attempt_match_number r hc, ← hcr, h1]

/-- C1 at `"0123"` (length 4) and at `"1.2e+3"` (length 6), nothing following. -/
theorem match_number_complete_on_word_witness :
    (match_number ['0', '1', '2', '3'] =
        some ⟨match_result.complete, token_kind.number, 4⟩ ∧
      attempt_match ['0', '1', '2', '3'] =
        some ⟨match_result.complete, token_kind.number, 4⟩) ∧
    (match_number ['1', '.', '2', 'e', '+', '3'] =
        some ⟨match_result.complete, token_kind.number, 6⟩ ∧
      attempt_match ['1', '.', '2', 'e', '+', '3'] =
        some ⟨match_result.complete, token_kind.number, 6⟩) :=
  ⟨match_number_complete_on_word ['0', '1', '2', '3'] []
      ⟨[], ['0', '1', '2', '3'], [], [], rfl, Or.inl rfl, by decide, Or.inl rfl, Or.inl rfl⟩
      (by decide),
    match_number_complete_on_word ['1', '.', '2', 'e', '+', '3'] []
      ⟨[], ['1'], ['.', '2'], ['e', '+', '3'], rfl, Or.inl rfl, by decide,
        Or.inr ⟨['2'], rfl, by decide⟩,
        Or.inr ⟨'e', ['+'], ['3'], rfl, by decide, Or.inr ⟨'+', rfl, by decide⟩, by decide⟩⟩
      (by decide)⟩

/-- C2: `match_number` always returns, with kind `number`, and returns
`unmatched` exactly when (a) the input does not begin with an optional `'-'`
and a digit, or (b) the byte after the integer digits is a `'.'` not followed by
a digit, or (c) the byte after the integer digits or after the fraction digits
is `'e'` or `'E'` not followed by a digit or by a sign and a digit; in every
other case the result is `complete`; and `"1."` is `unmatched`. -/
theorem match_number_unmatched_iff :
    (∀ input : List Char, ∃ out, match_number input = some out ∧
      out.kind = token_kind.number ∧
      (out.result = match_result.unmatched ↔
        number_rejected_start input ∨ number_rejected_fraction input ∨
          number_rejected_exponent input) ∧
      (¬ (number_rejected_start input ∨ number_rejected_fraction input ∨
          number_rejected_exponent input) → out.result = match_result.complete)) ∧
    (∃ n, match_number ['1', '.'] = some ⟨match_result.unmatched, token_kind.number, n⟩) := by
  refine ⟨fun input => ⟨scan_number input, match_number_eq input, scan_number_kind input,
    scan_number_unmatched_iff input, ?_⟩, ⟨2, by decide⟩⟩
  intro h
  rw [← scan_number_unmatched_iff] at h
  cases hr : (scan_number input).result with
  | complete => rfl
  | unmatched => exact absurd hr h

/-! ## Theorems about `match_string` -/

/-- C3: on an input whose first byte is `'"'`, `match_string` returns with kind
`string`; the result is `complete` exactly when the scan from index 1 (a
backslash taking the following byte with it) arrives at a `'"'`, the length is
then the index of that quote plus one, and otherwise the result is `unmatched`.
A string with an escaped quote is consumed through its real closing quote, and
an input ending without a closing quote or right after a backslash is
`unmatched`. -/
theorem match_string_complete_iff :
    (∀ r : List Char, ∃ out, match_string ('"' :: r) = some out ∧
      out.kind = token_kind.string ∧
      (out.result = match_result.complete ↔
        ∃ i, string_scan_at ('"' :: r) i ∧ ('"' :: r)[i]? = some '"') ∧
      (∀ i, string_scan_at ('"' :: r) i → ('"' :: r)[i]? = some '"' →
        out.result = match_result.complete ∧ out.length = i + 1) ∧
      ((¬ ∃ i, string_scan_at ('"' :: r) i ∧ ('"' :: r)[i]? = some '"') →
        out.result = match_result.unmatched)) ∧
    match_string ['"', 'a', 'b', '\\', '"', 'c', 'd', '"'] =
      some ⟨match_result.complete, token_kind.string, 8⟩ ∧
    (∃ n, match_string ['"', 'u', 'n', 't'] =
      some ⟨match_result.unmatched, token_kind.string, n⟩) ∧
    (∃ n, match_string ['"', 'a', '\\'] =
      some ⟨match_result.unmatched, token_kind.string, n⟩) := by
  refine ⟨fun r => ?_, by decide, ⟨4, by decide⟩, ⟨2, by decide⟩⟩
  have hfound : ∀ i, string_scan_at ('"' :: r) i → ('"' :: r)[i]? = some '"' →
      match_string_loop r 1 = (match_result.complete, i + 1) := by
    intro i hi hq
    have h := match_string_loop_reaches hi
    have hlt : i < ('"' :: r).length := by
      by_contra hlt
      rw [List.getElem?_eq_none (by omega)] at hq
      exact absurd hq (by simp)
    have hget : ('"' :: r)[i] = '"' := by
      rw [List.getElem?_eq_getElem hlt] at hq
      exact Option.some.inj hq
    rw [List.drop_eq_getElem_cons hlt, hget, match_string_loop_quote] at h
    simpa using h
  have hiff : (match_string_loop r 1).1 = match_result.complete ↔
      ∃ i, string_scan_at ('"' :: r) i ∧ ('"' :: r)[i]? = some '"' := by
    constructor
    · intro h
      obtain ⟨i, hi, hq, -⟩ := match_string_loop_complete (s := '"' :: r) r.length r 1
        (Nat.le_refl _) rfl string_scan_at.start h
      exact ⟨i, hi, hq⟩
    · rintro ⟨i, hi, hq⟩
      rw [hfound i hi hq]
  refine ⟨⟨(match_string_loop r 1).1, token_kind.string, (match_string_loop r 1).2⟩,
    by simp [match_string], rfl, hiff, ?_, ?_⟩
  · intro i hi hq
    simp [hfound i hi hq]
  · intro h
    rw [← hiff] at h
    cases hr : (match_string_loop r 1).1 with
    | complete => exact absurd hr h
    | unmatched => rfl

/-! ## Theorems about `match_comment` -/

theorem has_closer_iff (s : List Char) : has_closer s ↔ ∃ i, 2 ≤ i ∧ closer_at s i := by
  constructor
  · rintro ⟨i, -, hi⟩
    exact ⟨i, hi⟩
  · rintro ⟨i, hi, hc⟩
    exact ⟨i, by have := closer_at_lt hc; omega, hi, hc⟩

/-- C4: on an input that begins with `"/*"`, `match_comment` returns with kind
`comment`; the result is `complete` exactly when `"*/"` occurs starting at some
index `>= 2`, and the length is then the index just past the first such
occurrence.  The asterisk of the opener does not close (`"/*/"`), a `'*'` not
followed by `'/'` does not end the scan, and `"/* a * b */"` is complete with
length 11. -/
theorem match_comment_complete_iff :
    (∀ r : List Char, ∃ out, match_comment ('/' :: '*' :: r) = some out ∧
      out.kind = token_kind.comment ∧
      (out.result = match_result.complete ↔ ∃ i, 2 ≤ i ∧ closer_at ('/' :: '*' :: r) i) ∧
      (∀ i, first_closer_at ('/' :: '*' :: r) i →
        out.result = match_result.complete ∧ out.length = i + 2)) ∧
    match_comment ['/', '*', '/'] = some ⟨match_result.unmatched, token_kind.comment, 3⟩ ∧
    match_comment ['/', '*', '*', 'a', '*', '/'] =
      some ⟨match_result.complete, token_kind.comment, 6⟩ ∧
    match_comment ['/', '*', ' ', 'a', ' ', '*', ' ', 'b', ' ', '*', '/'] =
      some ⟨match_result.complete, token_kind.comment, 11⟩ := by
  refine ⟨fun r => ?_, by decide, by decide, by decide⟩
  refine ⟨_, match_comment_open r, rfl, ?_, ?_⟩
  · rw [← has_closer_iff]
    constructor
    · intro h
      by_contra hno
      rw [match_comment_loop_none hno] at h
      exact absurd h (by simp)
    · intro h
      obtain ⟨i, hi⟩ := has_closer_first h
      simp [match_comment_loop_first hi]
  · intro i hi
    simp [match_comment_loop_first hi]

/-- C5: on an input whose first byte is `'/'`: if the input is exactly `"/"` or
its second byte is not `'*'`, `match_comment` and `attempt_match` return
`unmatched` with length 1; if the input begins with `"/*"` and has no `"*/"` from
index 2 on, they return `unmatched` with the length of the whole input. -/
theorem match_comment_unmatched_length (input : List Char) (h : input[0]? = some '/') :
    ((input = ['/'] ∨ ∃ c, input[1]? = some c ∧ c ≠ '*') →
      match_comment input = some ⟨match_result.unmatched, token_kind.comment, 1⟩ ∧
      attempt_match input = some ⟨match_result.unmatched, token_kind.comment, 1⟩) ∧
    (input[1]? = some '*' → ¬ has_closer input →
      match_comment input = some ⟨match_result.unmatched, token_kind.comment, input.length⟩ ∧
      attempt_match input =
        some ⟨match_result.unmatched, token_kind.comment, input.length⟩) := by
  cases input with
  | nil => simp at h
  | cons c r =>
    obtain rfl : c = '/' := by simpa using h
    rw [attempt_match_comment]
    constructor
    · rintro (h1 | ⟨d, hd, hne⟩)
      · obtain rfl : r = [] := by simpa using h1
        simp [match_comment]
      · cases r with
        | nil => simp at hd
        | cons e r =>
          obtain rfl : e = d := by simpa using hd
          simp [match_comment, hne]
    · intro h1 hno
      cases r with
      | nil => simp at h1
      | cons e r =>
        obtain rfl : e = '*' := by simpa using h1
        rw [match_comment_open, match_comment_loop_none hno]
        simp

/-- C5 at `"/"`, at `"/x"` and at `"/* a"` (length 4). -/
theorem match_comment_unmatched_length_witness :
    (match_comment ['/'] = some ⟨match_result.unmatched, token_kind.comment, 1⟩ ∧
      attempt_match ['/'] = some ⟨match_result.unmatched, token_kind.comment, 1⟩) ∧
    (match_comment ['/', 'x'] = some ⟨match_result.unmatched, token_kind.comment, 1⟩ ∧
      attempt_match ['/', 'x'] = some ⟨match_result.unmatched, token_kind.comment, 1⟩) ∧
    (match_comment ['/', '*', ' ', 'a'] =
        some ⟨match_result.unmatched, token_kind.comment, 4⟩ ∧
      attempt_match ['/', '*', ' ', 'a'] =
        some ⟨match_result.unmatched, token_kind.comment, 4⟩) :=
  ⟨(match_comment_unmatched_length ['/'] rfl).1 (Or.inl rfl),
    (match_comment_unmatched_length ['/', 'x'] rfl).1 (Or.inr ⟨'x', rfl, by decide⟩),
    (match_comment_unmatched_length ['/', '*', ' ', 'a'] rfl).2 rfl (by decide)⟩

/-! ## Theorems about `attempt_match` -/

/-- C6: `attempt_match` returns on every input; the reported length is 0
exactly when the input is empty, and it never exceeds the number of available
bytes, whatever the result. -/
theorem attempt_match_length_progress (input : List Char) :
    ∃ out, attempt_match input = some out ∧ (out.length = 0 ↔ input = []) ∧
      out.length ≤ input.length := by
  cases input with
  | nil => exact ⟨_, rfl, by simp, by simp⟩
  | cons c r =>
    obtain ⟨out, h, h1, h2⟩ := attempt_match_cons_bounds c r
    refine ⟨out, h, ?_, h2⟩
    constructor
    · intro h0
      omega
    · intro h0
      exact absurd h0 (by simp)

/-- C7: idempotence.  For the dispatcher and for each single matcher (the
three literals, number, string, identifier, whitespace, comment): when it
returns `complete` with kind `k` and length `n` on `s`, it returns `complete`
with the same kind and the same length on exactly the first `n` bytes of `s`. -/
theorem matchers_idempotent (s : List Char) :
    rerun_agrees attempt_match s ∧
    rerun_agrees (fun x => some (match_true x)) s ∧
    rerun_agrees (fun x => some (match_false x)) s ∧
    rerun_agrees (fun x => some (match_null x)) s ∧
    rerun_agrees match_number s ∧
    rerun_agrees match_string s ∧
    rerun_agrees (fun x => some (match_simple_string x)) s ∧
    rerun_agrees (fun x => some (match_whitespace x)) s ∧
    rerun_agrees match_comment s :=
  ⟨attempt_match_rerun s, match_literal_rerun s _ _, match_literal_rerun s _ _,
    match_literal_rerun s _ _, match_number_rerun s, match_string_rerun s,
    match_simple_string_rerun s, match_whitespace_rerun s, match_comment_rerun s⟩

/-- C7 at `"12]"` for the dispatcher and the number matcher, and at `"true,"`
for the literal matcher: the matched bytes `"12"` and `"true"` match again. -/
theorem matchers_idempotent_witness :
    attempt_match ['1', '2'] = some ⟨match_result.complete, token_kind.number, 2⟩ ∧
    match_number ['1', '2'] = some ⟨match_result.complete, token_kind.number, 2⟩ ∧
    some (match_true ['t', 'r', 'u', 'e']) =
      some ⟨match_result.complete, token_kind.boolean, 4⟩ :=
  ⟨(matchers_idempotent ['1', '2', ']']).1
      ⟨match_result.complete, token_kind.number, 2⟩ (by decide) rfl,
    (matchers_idempotent ['1', '2', ']']).2.2.2.2.1
      ⟨match_result.complete, token_kind.number, 2⟩ (by decide) rfl,
    (matchers_idempotent ['t', 'r', 'u', 'e', ',']).2.1
      ⟨match_result.complete, token_kind.boolean, 4⟩ (by decide) rfl⟩

/-! ## Theorems about `path_match` -/

/-- C8: on an input of length at least 2 whose first byte is `'['`, the
dispatcher returns on the bytes after `'['`, and `path_match` returns `brace`
exactly when that inner token is `complete` with some length `n`, its kind is
`string` or `number`, and the byte at index `1 + n` exists and is `']'`; the
matched slice is then the first `n + 2` bytes of the input; in every other case
it returns `invalid`. -/
theorem path_match_brace_iff (input mc : List Char) (hlen : 2 ≤ input.length)
    (hfirst : input[0]? = some '[') :
    (∃ out, attempt_match (input.drop 1) = some out) ∧
    ∀ out, attempt_match (input.drop 1) = some out →
      ((path_match input mc).map Prod.fst = some path_match_result.brace ↔
        brace_accepts input out) ∧
      (brace_accepts input out →
        path_match input mc = some (path_match_result.brace, input.take (out.length + 2))) ∧
      (¬ brace_accepts input out →
        path_match input mc = some (path_match_result.invalid, mc)) := by
  cases input with
  | nil => simp at hlen
  | cons c r =>
    obtain rfl : c = '[' := by simpa using hfirst
    have hr : 1 ≤ r.length := by simpa using hlen
    refine ⟨attempt_match_total _, ?_⟩
    intro out h
    have hpm := path_match_bracket r mc hr (by simpa using h)
    by_cases hacc : brace_accepts ('[' :: r) out
    · rw [if_pos hacc] at hpm
      exact ⟨by simp [hpm, hacc], fun _ => hpm, fun hn => absurd hacc hn⟩
    · rw [if_neg hacc] at hpm
      exact ⟨by simp [hpm, hacc], fun hy => absurd hy hacc, fun _ => hpm⟩

/-- C8 at `["k"]`, which is `brace` with the whole segment, and at `[true]`,
which is `invalid`. -/
theorem path_match_brace_iff_witness :
    path_match ['[', '"', 'k', '"', ']'] [] =
      some (path_match_result.brace, ['[', '"', 'k', '"', ']']) ∧
    path_match ['[', 't', 'r', 'u', 'e', ']'] [] = some (path_match_result.invalid, []) :=
  ⟨((path_match_brace_iff ['[', '"', 'k', '"', ']'] [] (by decide) rfl).2
      ⟨match_result.complete, token_kind.string, 3⟩ (by decide)).2.1 (by decide),
    ((path_match_brace_iff ['[', 't', 'r', 'u', 'e', ']'] [] (by decide) rfl).2
      ⟨match_result.complete, token_kind.boolean, 4⟩ (by decide)).2.2 (by decide)⟩

/-- C9: on an input of length at least 2 whose first byte is `'.'`,
`path_match` returns `simple_object` exactly when the second byte is in
`[A-Za-z_$]`; the matched slice is then the `'.'` followed by the maximal run of
bytes in `[A-Za-z0-9_$]` after it, which is the first `1 + n` bytes of the input
for `n` the length reported by the identifier matcher; otherwise it returns
`invalid`. -/
theorem path_match_simple_object_iff (input mc : List Char) (hlen : 2 ≤ input.length)
    (hfirst : input[0]? = some '.') :
    (∃ c, input[1]? = some c) ∧
    ∀ c, input[1]? = some c →
      ((path_match input mc).map Prod.fst = some path_match_result.simple_object ↔
        is_simple_start c = true) ∧
      (is_simple_start c = true →
        path_match input mc =
          some (path_match_result.simple_object,
            '.' :: (input.drop 1).takeWhile is_simple_char) ∧
        '.' :: (input.drop 1).takeWhile is_simple_char =
          input.take (1 + (match_simple_string (input.drop 1)).length)) ∧
      (is_simple_start c = false →
        path_match input mc = some (path_match_result.invalid, mc)) := by
  cases input with
  | nil => simp at hlen
  | cons c0 r =>
    obtain rfl : c0 = '.' := by simpa using hfirst
    cases r with
    | nil => simp at hlen
    | cons d r =>
      refine ⟨⟨d, by simp⟩, ?_⟩
      intro c hc
      obtain rfl : d = c := by simpa using hc
      have hpm := path_match_dot (d :: r) mc (by simp)
      by_cases hs : is_simple_start d = true
      · have hms := match_simple_string_start r hs
        have htake : ('.' :: d :: r).take (((d :: r).takeWhile is_simple_char).length + 1) =
            '.' :: (d :: r).takeWhile is_simple_char := by
          rw [List.take_succ_cons, take_length_takeWhile]
        rw [hms, if_pos rfl] at hpm
        simp only at hpm
        rw [htake] at hpm
        refine ⟨by simp [hpm, hs], fun _ => ⟨by simpa using hpm, ?_⟩, fun hn => ?_⟩
        · simp only [List.drop_succ_cons, List.drop_zero, hms]
          rw [← htake, Nat.add_comm]
        · rw [hs] at hn
          exact absurd hn (by simp)
      · have hs0 : is_simple_start d = false := by simpa using hs
        have hms : (match_simple_string (d :: r)).result ≠ match_result.complete := by
          simp [match_simple_string, hs0]
        rw [if_neg hms] at hpm
        exact ⟨by simp [hpm, hs0], fun hy => absurd hy hs, fun _ => hpm⟩

/-- C9 at `".name"`: `simple_object` with matched slice `".name"`. -/
theorem path_match_simple_object_iff_witness :
    path_match ['.', 'n', 'a', 'm', 'e'] [] =
      some (path_match_result.simple_object, ['.', 'n', 'a', 'm', 'e']) :=
  (((path_match_simple_object_iff ['.', 'n', 'a', 'm', 'e'] [] (by decide) rfl).2
    'n' rfl).2.1 (by decide)).1

/-- C10: when `path_match` returns `simple_object` or `brace`, the matched
slice is a prefix of the input of length at least 2 and at most the input
length; the bytes after the segment do not change the outcome: the segment
followed by any other bytes (for a dot segment, bytes that do not begin with an
identifier byte, which would belong to the segment) gives the same result and
the same slice; and the remainder after the slice is strictly shorter than the
input. -/
theorem path_match_segment (input mc : List Char) (res : path_match_result) (m : List Char)
    (h : path_match input mc = some (res, m))
    (hres : res = path_match_result.simple_object ∨ res = path_match_result.brace) :
    m <+: input ∧ 2 ≤ m.length ∧ m.length ≤ input.length ∧
    (∀ t mc2, (res = path_match_result.simple_object → no_simple_head t) →
      path_match (m ++ t) mc2 = some (res, m)) ∧
    (input.drop m.length).length < input.length := by
  have hne : res ≠ path_match_result.invalid := by
    rcases hres with rfl | rfl <;> decide
  have hlen : ¬ input.length < 2 := by
    intro hlt
    rw [path_match_short input mc hlt] at h
    simp only [Option.some.injEq, Prod.mk.injEq] at h
    exact hne h.1.symm
  have key : m <+: input ∧ 2 ≤ m.length ∧
      (∀ t mc2, (res = path_match_result.simple_object → no_simple_head t) →
        path_match (m ++ t) mc2 = some (res, m)) := by
    cases input with
    | nil => simp at hlen
    | cons c r =>
      have hr : 1 ≤ r.length := by
        simp only [List.length_cons] at hlen
        omega
      by_cases hdot : c = '.'
      · subst hdot
        obtain ⟨rfl, rfl, d, r2, rfl, hs⟩ := path_match_dot_outcome r mc hr h hne
        refine ⟨?_, ?_, ?_⟩
        · exact List.prefix_cons_inj '.' |>.mpr (List.takeWhile_prefix _)
        · rw [List.takeWhile_cons_of_pos (is_simple_char_of_start hs)]
          simp
        · intro t mc2 ht
          exact path_match_dot_follow r2 hs t mc2 (ht rfl)
      · by_cases hbr : c = '['
        · subst hbr
          obtain ⟨rfl, out, ho, hacc, rfl⟩ := path_match_bracket_outcome r mc hr h hne
          obtain ⟨hlt, htake⟩ := getElem?_bracket hacc.2.2
          refine ⟨?_, ?_, ?_⟩
          · rw [← htake]
            exact List.prefix_cons_inj '[' |>.mpr (List.take_prefix _ _)
          · simp
          · intro t mc2 _
            exact path_match_bracket_follow ho hacc t mc2
        · rw [path_match_other r mc hdot hbr] at h
          simp only [Option.some.injEq, Prod.mk.injEq] at h
          exact absurd h.1.symm hne
  obtain ⟨hpre, h2, hfollow⟩ := key
  have hle : m.length ≤ input.length := hpre.length_le
  refine ⟨hpre, h2, hle, hfollow, ?_⟩
  rw [List.length_drop]
  omega

/-- C10 at `".a[1]"`, whose first segment is `".a"`, and at `"[1].a"`, whose
first segment is `"[1]"`: the segment alone gives the same outcome, and the
remainder is strictly shorter. -/
theorem path_match_segment_witness :
    (path_match ['.', 'a', '[', '1', ']'] [] =
        some (path_match_result.simple_object, ['.', 'a']) ∧
      path_match ['.', 'a'] [] = some (path_match_result.simple_object, ['.', 'a']) ∧
      (['.', 'a', '[', '1', ']'].drop 2).length < 5) ∧
    (path_match ['[', '1', ']', '.', 'a'] [] = some (path_match_result.brace, ['[', '1', ']']) ∧
      path_match ['[', '1', ']'] [] = some (path_match_result.brace, ['[', '1', ']']) ∧
      (['[', '1', ']', '.', 'a'].drop 3).length < 5) :=
  ⟨⟨by decide,
      (path_match_segment ['.', 'a', '[', '1', ']'] [] path_match_result.simple_object
        ['.', 'a'] (by decide) (Or.inl rfl)).2.2.2.1 [] [] (fun _ => by decide),
      (path_match_segment ['.', 'a', '[', '1', ']'] [] path_match_result.simple_object
        ['.', 'a'] (by decide) (Or.inl rfl)).2.2.2.2⟩,
    ⟨by decide,
      (path_match_segment ['[', '1', ']', '.', 'a'] [] path_match_result.brace
        ['[', '1', ']'] (by decide) (Or.inr rfl)).2.2.2.1 [] [] (fun h => absurd h (by decide)),
      (path_match_segment ['[', '1', ']', '.', 'a'] [] path_match_result.brace
        ['[', '1', ']'] (by decide) (Or.inr rfl)).2.2.2.2⟩⟩

/-! ## Theorems about the remaining cases of `path_match` and `attempt_match` -/

/-- C11: `path_match` returns `invalid` on every input shorter than 2 bytes
and on every input whose first byte is neither `'.'` nor `'['`. -/
theorem path_match_invalid_cases (input mc : List Char)
    (h : input.length < 2 ∨ ∃ c, input[0]? = some c ∧ c ≠ '.' ∧ c ≠ '[') :
    path_match input mc = some (path_match_result.invalid, mc) := by
  rcases h with h | ⟨c, hc, h1, h2⟩
  · exact path_match_short input mc h
  · cases input with
    | nil => simp at hc
    | cons d r =>
      obtain rfl : d = c := by simpa using hc
      exact path_match_other r mc h1 h2

/-- C11 at the empty input, at `"."` and `"["` alone, and at `"x12"`. -/
theorem path_match_invalid_cases_witness :
    path_match [] ['m'] = some (path_match_result.invalid, ['m']) ∧
    path_match ['.'] ['m'] = some (path_match_result.invalid, ['m']) ∧
    path_match ['['] ['m'] = some (path_match_result.invalid, ['m']) ∧
    path_match ['x', '1', '2'] ['m'] = some (path_match_result.invalid, ['m']) :=
  ⟨path_match_invalid_cases [] ['m'] (Or.inl (by decide)),
    path_match_invalid_cases ['.'] ['m'] (Or.inl (by decide)),
    path_match_invalid_cases ['['] ['m'] (Or.inl (by decide)),
    path_match_invalid_cases ['x', '1', '2'] ['m']
      (Or.inr ⟨'x', rfl, by decide, by decide⟩)⟩

/-- C13: on a first byte `'['`, `']'`, `'{'`, `'}'`, `':'` or `','` the
dispatcher returns `complete` with length 1 and kind `array_begin`, `array_end`,
`object_begin`, `object_end`, `object_key_delimiter` or `separator`, whatever
bytes follow. -/
theorem attempt_match_punctuation (r : List Char) :
    attempt_match ('[' :: r) = some ⟨match_result.complete, token_kind.array_begin, 1⟩ ∧
    attempt_match (']' :: r) = some ⟨match_result.complete, token_kind.array_end, 1⟩ ∧
    attempt_match ('{' :: r) = some ⟨match_result.complete, token_kind.object_begin, 1⟩ ∧
    attempt_match ('}' :: r) = some ⟨match_result.complete, token_kind.object_end, 1⟩ ∧
    attempt_match (':' :: r) =
      some ⟨match_result.complete, token_kind.object_key_delimiter, 1⟩ ∧
    attempt_match (',' :: r) = some ⟨match_result.complete, token_kind.separator, 1⟩ := by
  refine ⟨?_, ?_, ?_, ?_, ?_, ?_⟩ <;> simp [attempt_match]

/-- C14: the dispatcher returns `unmatched`, `unknown`, 0 on the empty input,
and `unmatched`, `unknown`, 1 on every input whose first byte is none of the
bytes it recognises. -/
theorem attempt_match_unknown (c : Char) (r : List Char) (h : unrecognized_lead c) :
    attempt_match [] = some ⟨match_result.unmatched, token_kind.unknown, 0⟩ ∧
    attempt_match (c :: r) = some ⟨match_result.unmatched, token_kind.unknown, 1⟩ := by
  obtain ⟨h1, h2, h3, h4, h5, h6, h7, h8, h9, h10, h11, h12, h13, h14, h15, h16, h17⟩ := h
  refine ⟨rfl, ?_⟩
  have hsp : is_space c = false := by simp [is_space, h13, h14, h15, h16]
  simp [attempt_match, h1, h2, h3, h4, h5, h6, h7, h8, h9, h10, h11, h12, hsp, h17]

/-- C14 at `"@x"` and at a lone `'\\'`. -/
theorem attempt_match_unknown_witness :
    attempt_match ['@', 'x'] = some ⟨match_result.unmatched, token_kind.unknown, 1⟩ ∧
    attempt_match ['\\'] = some ⟨match_result.unmatched, token_kind.unknown, 1⟩ :=
  ⟨(attempt_match_unknown '@' ['x'] (by decide)).2,
    (attempt_match_unknown '\\' [] (by decide)).2⟩

/-! ## Theorems about the literal matchers -/

theorem common_prefix_length_nil_right (a : List Char) : common_prefix_length a [] = 0 := by
  cases a <;> rfl

theorem common_prefix_length_of_prefix {lit input : List Char} (h : lit <+: input) :
    common_prefix_length input lit = lit.length := by
  induction lit generalizing input with
  | nil => exact common_prefix_length_nil_right input
  | cons l lit ih =>
    cases input with
    | nil => simp at h
    | cons b input =>
      obtain ⟨rfl, h2⟩ := List.cons_prefix_cons.mp h
      simp [common_prefix_length, ih h2]

/-- The loop of `match_literal` in closed form. -/
theorem match_literal_loop_eq (input literal : List Char) (n : Nat) :
    match_literal_loop input literal n =
      (if literal <+: input then match_result.complete else match_result.unmatched,
        n + common_prefix_length input literal) := by
  induction input, literal, n using match_literal_loop.induct with
  | case1 t n => simp [match_literal_loop, common_prefix_length_nil_right]
  | case2 l literal n => simp [match_literal_loop, common_prefix_length]
  | case3 b input l literal n h =>
    have hne : b ≠ l := by simpa using h
    have hne2 : ¬ l = b := fun e => hne e.symm
    simp [match_literal_loop, common_prefix_length, hne, List.cons_prefix_cons, hne2]
  | case4 b input l literal n h ih =>
    have heq : b = l := by simpa using h
    subst heq
    have hstep : match_literal_loop (b :: input) (b :: literal) n =
        match_literal_loop input literal (n + 1) := by
      simp [match_literal_loop]
    rw [hstep, ih]
    simp only [List.cons_prefix_cons, true_and, common_prefix_length, if_true]
    congr 1
    omega

/-- A literal matcher in closed form. -/
theorem match_literal_outcome (input literal : List Char) (k : token_kind) :
    (⟨(match_literal input literal).1, k, (match_literal input literal).2⟩ : match_output) =
      literal_outcome literal k input := by
  simp only [match_literal, match_literal_loop_eq, literal_outcome, Nat.zero_add]
  by_cases h : literal <+: input
  · simp [h, common_prefix_length_of_prefix h]
  · simp [h]

/-- C12: for each literal `lit` of `true`, `false`, `null` and every input
whose first byte is the first byte of `lit`, the dispatcher returns `complete`
with length `|lit|` when `lit` is a prefix of the input, and otherwise
`unmatched` with the length of the longest common prefix of the input and
`lit`; the kind is `boolean` for `true` and `false` and `null` for `null`. -/
theorem attempt_match_literal (lit : List Char) (k : token_kind) (input : List Char)
    (hlit : (lit, k) ∈ literal_table) (hfirst : input.head? = lit.head?) :
    attempt_match input = some (literal_outcome lit k input) ∧
    ((literal_outcome lit k input).result = match_result.complete ↔ lit <+: input) := by
  have hiff : (literal_outcome lit k input).result = match_result.complete ↔ lit <+: input := by
    unfold literal_outcome
    by_cases h : lit <+: input
    · simp [h]
    · simp [h]
  refine ⟨?_, hiff⟩
  simp only [literal_table, List.mem_cons, Prod.mk.injEq, List.mem_singleton,
    List.not_mem_nil, or_false] at hlit
  cases input with
  | nil =>
    rcases hlit with ⟨rfl, -⟩ | ⟨rfl, -⟩ | ⟨rfl, -⟩ <;> simp at hfirst
  | cons c r =>
    rcases hlit with ⟨rfl, rfl⟩ | ⟨rfl, rfl⟩ | ⟨rfl, rfl⟩
    · obtain rfl : c = 't' := by simpa using hfirst
      have : attempt_match ('t' :: r) = some (match_true ('t' :: r)) := by simp [attempt_match]
      rw [this, match_true, match_literal_outcome]
    · obtain rfl : c = 'f' := by simpa using hfirst
      have : attempt_match ('f' :: r) = some (match_false ('f' :: r)) := by
        simp [attempt_match]
      rw [this, match_false, match_literal_outcome]
    · obtain rfl : c = 'n' := by simpa using hfirst
      have : attempt_match ('n' :: r) = some (match_null ('n' :: r)) := by simp [attempt_match]
      rw [this, match_null, match_literal_outcome]

/-- C12 at `"true]"` (complete, 4), `"tru"` (unmatched, 3), `"trye"` (unmatched,
2), `"false"` (complete, 5) and `"nul"` (unmatched, 3). -/
theorem attempt_match_literal_witness :
    attempt_match ['t', 'r', 'u', 'e', ']'] =
      some ⟨match_result.complete, token_kind.boolean, 4⟩ ∧
    attempt_match ['t', 'r', 'u'] = some ⟨match_result.unmatched, token_kind.boolean, 3⟩ ∧
    attempt_match ['t', 'r', 'y', 'e'] = some ⟨match_result.unmatched, token_kind.boolean, 2⟩ ∧
    attempt_match ['f', 'a', 'l', 's', 'e'] =
      some ⟨match_result.complete, token_kind.boolean, 5⟩ ∧
    attempt_match ['n', 'u', 'l'] = some ⟨match_result.unmatched, token_kind.null, 3⟩ :=
  ⟨(attempt_match_literal ['t', 'r', 'u', 'e'] token_kind.boolean ['t', 'r', 'u', 'e', ']']
      (by decide) rfl).1,
    (attempt_match_literal ['t', 'r', 'u', 'e'] token_kind.boolean ['t', 'r', 'u']
      (by decide) rfl).1,
    (attempt_match_literal ['t', 'r', 'u', 'e'] token_kind.boolean ['t', 'r', 'y', 'e']
      (by decide) rfl).1,
    (attempt_match_literal ['f', 'a', 'l', 's', 'e'] token_kind.boolean
      ['f', 'a', 'l', 's', 'e'] (by decide) rfl).1,
    (attempt_match_literal ['n', 'u', 'l', 'l'] token_kind.null ['n', 'u', 'l']
      (by decide) rfl).1⟩

/-! ## Theorems about an empty range -/

/-- C15 (counterexample): on the empty range the literal, number, identifier
and whitespace matchers do not return `unmatched` with kind `unknown` and length
0: each reports the kind it sets on entry, and the whitespace matcher returns
`complete`. -/
theorem empty_range_not_unknown :
    match_true [] ≠ unmatched_unknown_zero ∧
    match_false [] ≠ unmatched_unknown_zero ∧
    match_null [] ≠ unmatched_unknown_zero ∧
    match_number [] ≠ some unmatched_unknown_zero ∧
    match_simple_string [] ≠ unmatched_unknown_zero ∧
    match_whitespace [] ≠ unmatched_unknown_zero := by
  decide

/-- C15 (amended): on the empty range every matcher that may be called on it
returns length 0 with the kind it sets on entry: the literal matchers return
`unmatched` with kind `boolean`, `boolean` and `null`, the number matcher
`unmatched` with kind `number`, the identifier matcher `unmatched` with kind
`string`, the whitespace matcher `complete` with kind `whitespace`, and the
dispatcher `unmatched` with kind `unknown`. -/
theorem empty_range_outcomes :
    match_true [] = ⟨match_result.unmatched, token_kind.boolean, 0⟩ ∧
    match_false [] = ⟨match_result.unmatched, token_kind.boolean, 0⟩ ∧
    match_null [] = ⟨match_result.unmatched, token_kind.null, 0⟩ ∧
    match_number [] = some ⟨match_result.unmatched, token_kind.number, 0⟩ ∧
    match_simple_string [] = ⟨match_result.unmatched, token_kind.string, 0⟩ ∧
    match_whitespace [] = ⟨match_result.complete, token_kind.whitespace, 0⟩ ∧
    attempt_match [] = some unmatched_unknown_zero := by
  decide

/-! ## Theorems about `match_simple_string` and `match_whitespace` -/

theorem prefix_length_le_takeWhile (p : Char → Bool) {q s : List Char} (h : q <+: s)
    (hq : ∀ x ∈ q, p x = true) : q.length ≤ (s.takeWhile p).length := by
  induction q generalizing s with
  | nil => simp
  | cons c q ih =>
    cases s with
    | nil => simp at h
    | cons d s =>
      obtain ⟨rfl, h2⟩ := List.cons_prefix_cons.mp h
      have hc : p c = true := hq c (List.mem_cons_self _ _)
      have := ih h2 (fun x hx => hq x (List.mem_cons_of_mem _ hx))
      simp only [List.takeWhile_cons_of_pos hc, List.length_cons]
      omega

theorem getElem?_length_takeWhile (p : Char → Bool) (s : List Char) {c : Char}
    (h : s[(s.takeWhile p).length]? = some c) : p c = false := by
  induction s with
  | nil => simp at h
  | cons d s ih =>
    by_cases hd : p d = true
    · rw [List.takeWhile_cons_of_pos hd] at h
      exact ih (by simpa using h)
    · have hd0 : p d = false := by simpa using hd
      rw [List.takeWhile_cons_of_neg hd] at h
      obtain rfl : d = c := by simpa using h
      exact hd0

/-- C16: `match_simple_string` returns `complete` exactly when the input is
non-empty and its first byte is in `[A-Za-z_$]`; the length is then the length
of the longest prefix that is a word of `[A-Za-z_$][A-Za-z0-9_$]*` (the scan
stops at the end of the input or at the first disallowed byte, which is not
consumed); otherwise it returns `unmatched` with length 0. -/
theorem match_simple_string_spec (input : List Char) :
    ((match_simple_string input).result = match_result.complete ↔
      ∃ c r, input = c :: r ∧ is_simple_start c = true) ∧
    ((match_simple_string input).result = match_result.complete →
      (match_simple_string input).length = (input.takeWhile is_simple_char).length ∧
      identifier_word (input.take (match_simple_string input).length) ∧
      (∀ p, p <+: input → identifier_word p →
        p.length ≤ (match_simple_string input).length) ∧
      (∀ c, input[(match_simple_string input).length]? = some c →
        is_simple_char c = false)) ∧
    ((match_simple_string input).result ≠ match_result.complete →
      (match_simple_string input).result = match_result.unmatched ∧
      (match_simple_string input).length = 0) := by
  cases input with
  | nil => simp [match_simple_string]
  | cons c r =>
    by_cases hs : is_simple_start c = true
    · have hsc := is_simple_char_of_start hs
      have hms := match_simple_string_start r hs
      refine ⟨?_, ?_, ?_⟩
      · rw [hms]
        exact ⟨fun _ => ⟨c, r, rfl, hs⟩, fun _ => rfl⟩
      · intro _
        rw [hms]
        refine ⟨rfl, ?_, ?_, ?_⟩
        · simp only
          rw [take_length_takeWhile, List.takeWhile_cons_of_pos hsc]
          exact ⟨c, _, rfl, hs, fun d hd => List.mem_takeWhile_imp hd⟩
        · rintro p hp ⟨d, q, rfl, hd, hq⟩
          refine prefix_length_le_takeWhile is_simple_char hp ?_
          intro x hx
          rcases List.mem_cons.mp hx with rfl | hx
          · exact is_simple_char_of_start hd
          · exact hq x hx
        · intro d hd
          exact getElem?_length_takeWhile is_simple_char (c :: r) hd
      · intro h
        rw [hms] at h
        exact absurd rfl h
    · have hs0 : is_simple_start c = false := by simpa using hs
      have hms : match_simple_string (c :: r) =
          ⟨match_result.unmatched, token_kind.string, 0⟩ := by
        simp [match_simple_string, hs0]
      rw [hms]
      refine ⟨?_, ?_, ?_⟩
      · constructor
        · intro h
          exact absurd h (by decide)
        · rintro ⟨d, q, hq, hd⟩
          obtain ⟨rfl, -⟩ := List.cons.inj hq
          exact absurd hd hs
      · intro h
        exact absurd h (by decide)
      · intro _
        exact ⟨rfl, rfl⟩

theorem match_whitespace_loop_eq (rest : List Char) (n : Nat) :
    match_whitespace_loop rest n = n + (rest.takeWhile is_space).length := by
  induction rest generalizing n with
  | nil => simp [match_whitespace_loop]
  | cons c rest ih =>
    by_cases hc : is_space c = true
    · simp [match_whitespace_loop, hc, ih, List.takeWhile_cons_of_pos]
      omega
    · simp [match_whitespace_loop, hc]

/-- C17: on every input `match_whitespace` returns `complete` with kind
`whitespace` and length the number of leading bytes that are space, tab, CR or
LF; the length is 0 on the empty input and on an input that does not begin with
whitespace; the byte at index `length`, if any, is not a whitespace byte; and
when the dispatcher reaches it the length is at least 1. -/
theorem match_whitespace_spec (input : List Char) :
    match_whitespace input =
      ⟨match_result.complete, token_kind.whitespace, (input.takeWhile is_space).length⟩ ∧
    (∀ c, input[(match_whitespace input).length]? = some c → is_space c = false) ∧
    (no_space_head input → (match_whitespace input).length = 0) ∧
    (∀ c r, input = c :: r → is_space c = true →
      attempt_match input = some (match_whitespace input) ∧
      1 ≤ (match_whitespace input).length) := by
  have h1 : match_whitespace input =
      ⟨match_result.complete, token_kind.whitespace, (input.takeWhile is_space).length⟩ := by
    simp [match_whitespace, match_whitespace_loop_eq]
  refine ⟨h1, ?_, ?_, ?_⟩
  · intro c hc
    rw [h1] at hc
    exact getElem?_length_takeWhile is_space input hc
  · intro h
    rw [h1]
    cases input with
    | nil => rfl
    | cons c r =>
      have : is_space c = false := h c (by simp)
      simp [this]
  · rintro c r rfl hc
    refine ⟨attempt_match_whitespace r hc, ?_⟩
    rw [h1]
    simp [List.takeWhile_cons_of_pos hc]

/-- C16 at `"ab1-x"`, whose identifier is `"ab1"`, and at `"1ab"`, which does
not start an identifier. -/
theorem match_simple_string_spec_witness :
    (match_simple_string ['a', 'b', '1', '-', 'x']).length = 3 ∧
    ((match_simple_string ['1', 'a', 'b']).result = match_result.unmatched ∧
      (match_simple_string ['1', 'a', 'b']).length = 0) :=
  ⟨((match_simple_string_spec ['a', 'b', '1', '-', 'x']).2.1 (by decide)).1,
    (match_simple_string_spec ['1', 'a', 'b']).2.2 (by decide)⟩

/-- C17 at `" \tx"` (length 2, reached through the dispatcher) and at `"x "`
(length 0). -/
theorem match_whitespace_spec_witness :
    (attempt_match [' ', '\t', 'x'] = some (match_whitespace [' ', '\t', 'x']) ∧
      1 ≤ (match_whitespace [' ', '\t', 'x']).length) ∧
    (match_whitespace ['x', ' ']).length = 0 :=
  ⟨(match_whitespace_spec [' ', '\t', 'x']).2.2.2 ' ' ['\t', 'x'] rfl (by decide),
    (match_whitespace_spec ['x', ' ']).2.2.1 (by decide)⟩

/-! ## Safety and frame of `path_match` -/

theorem match_simple_string_le (s : List Char) :
    (match_simple_string s).length ≤ s.length := by
  cases s with
  | nil => simp [match_simple_string]
  | cons c r =>
    by_cases hs : is_simple_start c = true
    · have := match_simple_string_loop_bounds r 1
      simp only [match_simple_string, hs, if_true, List.length_cons]
      omega
    · simp [match_simple_string, hs]

/-- Either `path_match` returns `invalid` and hands back the caller's
`match_contents`, or it returns another result with a slice that does not
depend on the caller's `match_contents`. -/
theorem path_match_cases (input mc : List Char) :
    path_match input mc = some (path_match_result.invalid, mc) ∨
    ∃ res m, res ≠ path_match_result.invalid ∧
      ∀ mc2, path_match input mc2 = some (res, m) := by
  by_cases hlen : input.length < 2
  · exact Or.inl (path_match_short input mc hlen)
  · cases input with
    | nil => simp at hlen
    | cons c r =>
      have hr : 1 ≤ r.length := by
        simp only [List.length_cons] at hlen
        omega
      by_cases hdot : c = '.'
      · subst hdot
        by_cases hc : (match_simple_string r).result = match_result.complete
        · refine Or.inr ⟨path_match_result.simple_object,
            ('.' :: r).take ((match_simple_string r).length + 1), by decide, fun mc2 => ?_⟩
          rw [path_match_dot r mc2 hr, if_pos hc]
        · left
          rw [path_match_dot r mc hr, if_neg hc]
      · by_cases hbr : c = '['
        · subst hbr
          obtain ⟨out, ho⟩ := attempt_match_total r
          by_cases hacc : brace_accepts ('[' :: r) out
          · refine Or.inr ⟨path_match_result.brace, ('[' :: r).take (out.length + 2), by decide,
              fun mc2 => ?_⟩
            rw [path_match_bracket r mc2 hr ho, if_pos hacc]
          · left
            rw [path_match_bracket r mc hr ho, if_neg hacc]
        · exact Or.inl (path_match_other r mc hdot hbr)

theorem match_string_none_iff (input : List Char) :
    match_string input = none ↔ input.head? ≠ some '"' := by
  cases input with
  | nil => simp [match_string]
  | cons c r =>
    by_cases hc : c = '"'
    · simp [match_string, hc]
    · simp [match_string, hc]

theorem match_comment_none_iff (input : List Char) :
    match_comment input = none ↔ input.head? ≠ some '/' := by
  cases input with
  | nil => simp [match_comment]
  | cons c r =>
    by_cases hc : c = '/'
    · subst hc
      obtain ⟨out, h, -⟩ := match_comment_bounds r
      simp [h]
    · simp [match_comment, hc]

/-- C18: on every input `attempt_match`, `match_number` and `path_match`
return normally.  The assertions of `match_string` and `match_comment` fail
exactly on a first byte other than `'"'` and `'/'`, and the dispatcher never
fails, so it enters them only on those first bytes; `match_number` never fails
its final assertion; in `path_match` the read at index `1 + length` is inside
the input whenever it is executed, and the counts passed to `substr` do not
exceed the input length. -/
theorem no_failed_assertion (input mc : List Char) :
    (∃ out, attempt_match input = some out) ∧
    (∃ out, match_number input = some out) ∧
    (∃ res, path_match input mc = some res) ∧
    (match_string input = none ↔ input.head? ≠ some '"') ∧
    (match_comment input = none ↔ input.head? ≠ some '/') ∧
    (2 ≤ input.length → ∃ c, input[0]? = some c) ∧
    (∀ out, 2 ≤ input.length → attempt_match (input.drop 1) = some out →
      out.result = match_result.complete → input.length ≠ out.length + 1 →
      ∃ d, input[1 + out.length]? = some d) ∧
    (2 ≤ input.length → (match_simple_string (input.drop 1)).length + 1 ≤ input.length) ∧
    (∀ out, attempt_match (input.drop 1) = some out → brace_accepts input out →
      out.length + 2 ≤ input.length) := by
  refine ⟨attempt_match_total input, ⟨_, match_number_eq input⟩, ?_, match_string_none_iff input,
    match_comment_none_iff input, ?_, ?_, ?_, ?_⟩
  · rcases path_match_cases input mc with h | ⟨res, m, -, h⟩
    · exact ⟨_, h⟩
    · exact ⟨_, h mc⟩
  · intro h
    exact ⟨input[0], List.getElem?_eq_getElem (by omega)⟩
  · intro out hlen ho _ hne
    have hle := attempt_match_le ho
    rw [List.length_drop] at hle
    have hlt : 1 + out.length < input.length := by omega
    exact ⟨input[1 + out.length], List.getElem?_eq_getElem hlt⟩
  · intro hlen
    have := match_simple_string_le (input.drop 1)
    rw [List.length_drop] at this
    omega
  · intro out _ hacc
    have h := hacc.2.2
    have hlt : 1 + out.length < input.length := by
      by_contra hge
      rw [List.getElem?_eq_none (by omega)] at h
      exact absurd h (by simp)
    omega

/-- C18 at `"[12"`: the inner number covers the rest of the input, the read at
index `1 + length` is not executed, and the call returns `invalid`; and at
`"[12]"`, where the read is executed inside the input. -/
theorem no_failed_assertion_witness :
    (∃ res, path_match ['[', '1', '2'] [] = some res) ∧
    (∃ d, ['[', '1', '2', ']'][1 + 2]? = some d) ∧
    2 + 2 ≤ ['[', '1', '2', ']'].length :=
  ⟨(no_failed_assertion ['[', '1', '2'] []).2.2.1,
    (no_failed_assertion ['[', '1', '2', ']'] []).2.2.2.2.2.2.1
      ⟨match_result.complete, token_kind.number, 2⟩ (by decide) (by decide) rfl (by decide),
    (no_failed_assertion ['[', '1', '2', ']'] []).2.2.2.2.2.2.2.2
      ⟨match_result.complete, token_kind.number, 2⟩ (by decide) (by decide)⟩

/-- C19: soundness of the number matcher.  When `match_number` returns
`complete` with length `n`, then `n >= 1`, the first `n` bytes of the input are
a word of the relaxed number grammar, and the byte at index `n`, if there is
one, is not a digit. -/
theorem match_number_sound (input : List Char) (k : token_kind) (n : Nat)
    (h : match_number input = some ⟨match_result.complete, k, n⟩) :
    1 ≤ n ∧ n ≤ input.length ∧ number_word (input.take n) ∧
    ∀ c, input[n]? = some c → is_digit c = false := by
  rw [match_number_eq] at h
  have hs : scan_number input = ⟨match_result.complete, k, n⟩ := Option.some.inj h
  have hres : (scan_number input).result = match_result.complete := by rw [hs]
  obtain ⟨w, t, hsplit, hw, ht, hl⟩ := scan_number_sound hres
  have hn : n = w.length := by
    rw [hs] at hl
    exact hl
  subst hn
  subst hsplit
  obtain ⟨c0, r0, hcr, -⟩ := number_word_head (t := []) hw
  have hpos : 1 ≤ w.length := by
    have : (w ++ []).length = (c0 :: r0).length := by rw [hcr]
    simp only [List.append_nil, List.length_cons] at this
    omega
  refine ⟨hpos, by simp, by simpa using hw, ?_⟩
  intro c hc
  rw [List.getElem?_append_right (Nat.le_refl _)] at hc
  simp only [Nat.sub_self] at hc
  apply ht c
  cases t with
  | nil => simp at hc
  | cons d t => simpa using hc

/-- C19 at `"-12.5e+3x"`, matched with length 8, and at `"007,"`, matched with
length 3. -/
theorem match_number_sound_witness :
    (1 ≤ 8 ∧ 8 ≤ 9 ∧ number_word (['-', '1', '2', '.', '5', 'e', '+', '3', 'x'].take 8) ∧
      ∀ c, ['-', '1', '2', '.', '5', 'e', '+', '3', 'x'][8]? = some c → is_digit c = false) ∧
    number_word (['0', '0', '7', ','].take 3) :=
  ⟨match_number_sound ['-', '1', '2', '.', '5', 'e', '+', '3', 'x'] token_kind.number 8
      (by decide),
    (match_number_sound ['0', '0', '7', ','] token_kind.number 3 (by decide)).2.2.1⟩

/-- C20: whenever `path_match` returns `invalid`, the caller's `match_contents`
is what it was before the call; on the other outcomes it is overwritten with a
slice that does not depend on its previous value. -/
theorem path_match_frame (input mc : List Char) (res : path_match_result) (m : List Char)
    (h : path_match input mc = some (res, m)) :
    (res = path_match_result.invalid → m = mc) ∧
    (res ≠ path_match_result.invalid → ∀ mc2, path_match input mc2 = some (res, m)) := by
  rcases path_match_cases input mc with h1 | ⟨res2, m2, hne, h2⟩
  · rw [h1] at h
    simp only [Option.some.injEq, Prod.mk.injEq] at h
    obtain ⟨rfl, rfl⟩ := h
    exact ⟨fun _ => rfl, fun hn => absurd rfl hn⟩
  · have := h2 mc
    rw [this] at h
    simp only [Option.some.injEq, Prod.mk.injEq] at h
    obtain ⟨rfl, rfl⟩ := h
    exact ⟨fun hi => absurd hi hne, fun _ => h2⟩

/-- C20 at `"[true]"` and `".1"`, which are `invalid` and leave `"old"` in
place, and at `".a"`, which writes the slice whatever was there. -/
theorem path_match_frame_witness :
    (path_match ['[', 't', 'r', 'u', 'e', ']'] ['o', 'l', 'd'] =
        some (path_match_result.invalid, ['o', 'l', 'd']) ∧
      ['o', 'l', 'd'] = ['o', 'l', 'd']) ∧
    (path_match ['.', '1'] ['o', 'l', 'd'] =
        some (path_match_result.invalid, ['o', 'l', 'd']) ∧
      ['o', 'l', 'd'] = ['o', 'l', 'd']) ∧
    path_match ['.', 'a'] ['o', 'l', 'd'] =
      some (path_match_result.simple_object, ['.', 'a']) :=
  ⟨⟨by decide,
      (path_match_frame ['[', 't', 'r', 'u', 'e', ']'] ['o', 'l', 'd']
        path_match_result.invalid ['o', 'l', 'd'] (by decide)).1 rfl⟩,
    ⟨by decide,
      (path_match_frame ['.', '1'] ['o', 'l', 'd'] path_match_result.invalid ['o', 'l', 'd']
        (by decide)).1 rfl⟩,
    (path_match_frame ['.', 'a'] [] path_match_result.simple_object ['.', 'a']
      (by decide)).2 (by decide) ['o', 'l', 'd']⟩

end jsonv.detail
